import Mathlib

/-!
# cgorithm: a verification development

A shallow embedding of `cgorithm.go` (package `cgorithm`) and theorems about it.

Conventions of the embedding:

* a Go slice `[]T` is a `List T`; a Go map `map[K]V` is the list of its entries
  `List (K × V)` in the order in which one `range` over the map enumerates them
  (keys pairwise distinct, order arbitrary);
* an index produced by `range` or by a counting loop is a `Nat`; a Go `int` that can be
  negative (`len(arr) - 1`, the `-1` of `Find`, a comparator result) is an `Int`;
* `for index, element := range arr` is a recursion over the list that carries `index`;
  `for i := 0; i < n; i++` whose body assigns neither `i` nor `n` runs its body for
  `i` in `List.range n`;
* an indexing expression `arr[j]` is the lookup `arr[j]?`; a function that indexes returns
  an `Option`, with `none` standing for the run-time panic of an out-of-range index;
* a predicate, transform or reduce closure is a function; a visitor of `Foreach` and
  `Zip`, which is called for its effect, is a function that also takes and returns the
  state `σ` it closes over;
* `make([]T, n)` is `makeSlice`: `n` copies of the zero value of `T` (`default`), and a
  panic for a negative `n` and for an `n` above the largest length `maxLen` that the
  runtime allocates for the element type; an `int` product that sizes a slice is wrapped
  to 64 bits;
* a map that a function builds is the list of its entries, and `result[key] = value` is
  `mapAssign`; where a function ranges over the same map several times, each `range` has
  its own enumeration.
-/

namespace Cgorithm

/-! ## Embedding of `cgorithm.go` -/

/-- Counts elements in slice that match predicate (`CountIf`, loop body). -/
def CountIf.loop {T : Type} (predicate : Nat → T → Bool) : Nat → List T → Nat → Nat
  | _, [], result => result
  | index, element :: rest, result =>
    if predicate index element then CountIf.loop predicate (index + 1) rest (result + 1)
    else CountIf.loop predicate (index + 1) rest result

/-- Go `CountIf`: `result := 0`, then the loop over `range arr`. -/
def CountIf {T : Type} (arr : List T) (predicate : Nat → T → Bool) : Nat :=
  CountIf.loop predicate 0 arr 0

/-- Loop of `Filter`: `result = append(result, element)` when the predicate holds. -/
def Filter.loop {T : Type} (predicate : Nat → T → Bool) : Nat → List T → List T → List T
  | _, [], result => result
  | index, element :: rest, result =>
    if predicate index element then Filter.loop predicate (index + 1) rest (result ++ [element])
    else Filter.loop predicate (index + 1) rest result

/-- Go `Filter`: `result := []T{}`, then the loop over `range arr`. -/
def Filter {T : Type} (arr : List T) (predicate : Nat → T → Bool) : List T :=
  Filter.loop predicate 0 arr []

/-- Loop of `Find`: returns the index at the first `x == element`, `-1` after the loop. -/
def Find.loop {T : Type} [DecidableEq T] (element : T) : Nat → List T → Int
  | _, [] => -1
  | index, x :: rest => if x = element then (index : Int) else Find.loop element (index + 1) rest

/-- Go `Find`. -/
def Find {T : Type} [DecidableEq T] (arr : List T) (element : T) : Int :=
  Find.loop element 0 arr

/-- Loop of `FindIf`: returns the index at the first hit, `-1` after the loop. -/
def FindIf.loop {T : Type} (predicate : Nat → T → Bool) : Nat → List T → Int
  | _, [] => -1
  | index, element :: rest =>
    if predicate index element then (index : Int) else FindIf.loop predicate (index + 1) rest

/-- Go `FindIf`. -/
def FindIf {T : Type} (arr : List T) (predicate : Nat → T → Bool) : Int :=
  FindIf.loop predicate 0 arr

/-- Go `type ForeachAction int`. -/
abbrev ForeachAction := Int

/-- Do nothing. -/
def ForeachNoOp : ForeachAction := 0

/-- Break from loop. -/
def ForeachBreak : ForeachAction := 1

/-- Continues loop. -/
def ForeachContinue : ForeachAction := 2

/-- Loop of `Foreach`. The `switch` has four arms: `ForeachNoOp` falls out of the switch,
`ForeachBreak` runs `break`, which in Go leaves the `switch` statement (not the `for`),
`ForeachContinue` runs `continue`; all three go on with the next element. The `default`
arm returns `false`. -/
def Foreach.loop {T σ : Type} (predicate : Nat → T → σ → ForeachAction × σ) :
    Nat → List T → σ → Bool × σ
  | _, [], s => (true, s)
  | index, element :: rest, s =>
    let r := predicate index element s
    if r.1 = ForeachNoOp then Foreach.loop predicate (index + 1) rest r.2
    else if r.1 = ForeachBreak then Foreach.loop predicate (index + 1) rest r.2
    else if r.1 = ForeachContinue then Foreach.loop predicate (index + 1) rest r.2
    else (false, r.2)

/-- Go `Foreach`; the second component is the visitor's state after the call. -/
def Foreach {T σ : Type} (arr : List T) (predicate : Nat → T → σ → ForeachAction × σ)
    (s : σ) : Bool × σ :=
  Foreach.loop predicate 0 arr s

/-- Same as `Find`, but for maps (`MFindK`): returns `[]TK{key}` at the first entry whose
value is `element`, `[]TK{}` after the loop. -/
def MFindK {TK TV : Type} [DecidableEq TV] : List (TK × TV) → TV → List TK
  | [], _ => []
  | (key, value) :: rest, element => if value = element then [key] else MFindK rest element

/-- Loop of `MFindV`: appends the key of every entry whose value is `element`. -/
def MFindV.loop {TK TV : Type} [DecidableEq TV] (element : TV) :
    List (TK × TV) → List TK → List TK
  | [], result => result
  | (key, value) :: rest, result =>
    if value = element then MFindV.loop element rest (result ++ [key])
    else MFindV.loop element rest result

/-- Go `MFindV`: `result := []TK{}`, then the loop over `range m`. -/
def MFindV {TK TV : Type} [DecidableEq TV] (m : List (TK × TV)) (element : TV) : List TK :=
  MFindV.loop element m []

/-- Finds min value of x and y values. -/
def Min {T : Type} [LinearOrder T] (x y : T) : T :=
  if x < y then x else y

/-- Body of the inner loop of `Qsort`: reads `result[j]` and `result[j+1]`, calls
`predicate(i, j, result[j], result[j+1])` and swaps the two when the answer is `> 0`. -/
def Qsort.step {T : Type} (predicate : Nat → Nat → T → T → Int) (i j : Nat)
    (result : List T) : Option (List T) :=
  match result[j]?, result[j + 1]? with
  | some a, some b =>
    if predicate i j a b > 0 then some ((result.set j b).set (j + 1) a) else some result
  | _, _ => none

/-- Inner loop of `Qsort`: `for j := 0; j < n; j++`. -/
def Qsort.pass {T : Type} (predicate : Nat → Nat → T → T → Int) (n : Int) (i : Nat)
    (result : List T) : Option (List T) :=
  (List.range n.toNat).foldlM (fun result j => Qsort.step predicate i j result) result

/-- Go `Qsort`: `n := len(arr) - 1`, then `for i := 0; i < n; i++` around the inner loop. -/
def Qsort {T : Type} (arr : List T) (predicate : Nat → Nat → T → T → Int) : Option (List T) :=
  let n : Int := (arr.length : Int) - 1
  (List.range n.toNat).foldlM (fun result i => Qsort.pass predicate n i result) arr

/-- Loop of `Reduce`: `result = predicate(index, result, element)`. -/
def Reduce.loop {T U : Type} (predicate : Nat → U → T → U) : Nat → List T → U → U
  | _, [], result => result
  | index, element :: rest, result =>
    Reduce.loop predicate (index + 1) rest (predicate index result element)

/-- Go `Reduce`: `result := init`, then the loop over `range arr`. -/
def Reduce {T U : Type} (arr : List T) (init : U) (predicate : Nat → U → T → U) : U :=
  Reduce.loop predicate 0 arr init

/-- Loop of `Transform`: `result = append(result, predicate(index, element))`. -/
def Transform.loop {T U : Type} (predicate : Nat → T → U) : Nat → List T → List U → List U
  | _, [], result => result
  | index, element :: rest, result =>
    Transform.loop predicate (index + 1) rest (result ++ [predicate index element])

/-- Go `Transform`: `result := []U{}`, then the loop over `range arr`. -/
def Transform {T U : Type} (arr : List T) (predicate : Nat → T → U) : List U :=
  Transform.loop predicate 0 arr []

/-- Loop of `TransformReduce`: `result = reduce(index, result, transform(index, element))`. -/
def TransformReduce.loop {T U : Type} (reduce : Nat → U → U → U) (transform : Nat → T → U) :
    Nat → List T → U → U
  | _, [], result => result
  | index, element :: rest, result =>
    TransformReduce.loop reduce transform (index + 1) rest
      (reduce index result (transform index element))

/-- Go `TransformReduce`: `result := init`, then the loop over `range arr`. -/
def TransformReduce {T U : Type} (arr : List T) (init : U) (reduce : Nat → U → U → U)
    (transform : Nat → T → U) : U :=
  TransformReduce.loop reduce transform 0 arr init

/-- Body of the inner loop of `Sort`: swaps when `result[j] > result[j+1]`. -/
def SortSlice.step {T : Type} [LinearOrder T] (j : Nat) (result : List T) : Option (List T) :=
  match result[j]?, result[j + 1]? with
  | some a, some b =>
    if a > b then some ((result.set j b).set (j + 1) a) else some result
  | _, _ => none

/-- Inner loop of `Sort`: `for j := 0; j < n; j++`. -/
def SortSlice.pass {T : Type} [LinearOrder T] (n : Int) (result : List T) : Option (List T) :=
  (List.range n.toNat).foldlM (fun result j => SortSlice.step j result) result

/-- Go `Sort` (the word is reserved in Lean, hence `SortSlice`): `n := len(arr) - 1`, then
`for i := 0; i < n; i++` around the inner loop; the body does not mention `i`. -/
def SortSlice {T : Type} [LinearOrder T] (arr : List T) : Option (List T) :=
  let n : Int := (arr.length : Int) - 1
  (List.range n.toNat).foldlM (fun result _ => SortSlice.pass n result) arr

/-- Loop of `Sum`: `result += element`. -/
def Sum.loop {T : Type} [Add T] : List T → T → T
  | [], result => result
  | element :: rest, result => Sum.loop rest (result + element)

/-- Go `Sum`: `result := init`, then the loop over `range arr`. -/
def Sum {T : Type} [Add T] (arr : List T) (init : T) : T :=
  Sum.loop arr init

/-- Loop of `Zip`, `index` running over the values of `for index := 0; index < length;
index++`. The `switch` is the one of `Foreach`: only the `default` arm leaves the loop. -/
def Zip.loop {T U σ : Type} (arr1 : List T) (arr2 : List U)
    (predicate : Nat → T → U → σ → ForeachAction × σ) : List Nat → σ → Option (Bool × σ)
  | [], s => some (true, s)
  | index :: indices, s =>
    match arr1[index]?, arr2[index]? with
    | some a, some b =>
      let r := predicate index a b s
      if r.1 = ForeachNoOp then Zip.loop arr1 arr2 predicate indices r.2
      else if r.1 = ForeachBreak then Zip.loop arr1 arr2 predicate indices r.2
      else if r.1 = ForeachContinue then Zip.loop arr1 arr2 predicate indices r.2
      else some (false, r.2)
    | _, _ => none

/-- Go `Zip`: `length := Min(len(arr1), len(arr2))`, then the counting loop. -/
def Zip {T U σ : Type} (arr1 : List T) (arr2 : List U)
    (predicate : Nat → T → U → σ → ForeachAction × σ) (s : σ) : Option (Bool × σ) :=
  let length := Min arr1.length arr2.length
  Zip.loop arr1 arr2 predicate (List.range length) s

/-! ## Go values used by the tests -/

/-- Go `int` arithmetic on a 64-bit target: the result wrapped into `[-2^63, 2^63)`,
that is `(z + 2^63) % 2^64 - 2^63`. -/
def wrapInt (z : Int) : Int :=
  (z + 9223372036854775808) % 18446744073709551616 - 9223372036854775808

/-- A Go `int`. -/
structure GoInt where
  /-- The value, in `[-2^63, 2^63)`. -/
  val : Int
deriving DecidableEq

/-- Go `+` on `int` wraps. -/
instance : Add GoInt := ⟨fun x y => ⟨wrapInt (x.val + y.val)⟩⟩

/-- A Go `string`. -/
structure GoString where
  /-- The text. -/
  val : String
deriving DecidableEq

/-- Go `+` on `string` is concatenation. -/
instance : Add GoString := ⟨fun x y => ⟨x.val ++ y.val⟩⟩

/-! ## Comparators of the tests -/

/-- The ascending comparator `x - y` of `TestQsort`, on mathematical integers (Go computes
`wrapInt (x - y)`, the same number whenever the difference fits an `int`). -/
def cmpAscending : Nat → Nat → Int → Int → Int :=
  fun _ _ x y => x - y

/-- The descending comparator `y - x` of `TestQsort`, on mathematical integers. -/
def cmpDescending : Nat → Nat → Int → Int → Int :=
  fun _ _ x y => y - x

/-- The input slice of `TestQsort`. -/
def qsortTestInput : List Int :=
  [37, 53, 74, 7, 66, 62, 79, 66, 26, 4]

/-! ## One pass of the adjacent-swap loop, in structural form -/

/-- One pass `for j := ...` that has reached position `j` with `a` at that position and
`rest` after it: the pass as a recursion over the list rather than over indices. -/
def bubbleFrom {T : Type} (predicate : Nat → Nat → T → T → Int) (i : Nat) :
    Nat → T → List T → List T
  | _, a, [] => [a]
  | j, a, b :: rest =>
    if predicate i j a b > 0 then b :: bubbleFrom predicate i (j + 1) a rest
    else a :: bubbleFrom predicate i (j + 1) b rest

/-- One whole pass over a list, in structural form. -/
def bubbleList {T : Type} (predicate : Nat → Nat → T → T → Int) (i : Nat) : List T → List T
  | [] => []
  | a :: rest => bubbleFrom predicate i 0 a rest

/-- The state after `k` passes: a sorted back part that dominates the front part, the
front part having lost one element per pass. -/
def PassInv {T : Type} (le : T → T → Prop) (k : Nat) (l : List T) : Prop :=
  ∃ front back, l = front ++ back ∧ back.Pairwise le ∧
    (∀ x ∈ front, ∀ y ∈ back, le x y) ∧ front.length ≤ l.length - k

/-- The comparator that `Sort` applies: positive exactly when `a > b`. -/
def cmpNatural {T : Type} [LinearOrder T] : Nat → Nat → T → T → Int :=
  fun _ _ a b => if a > b then 1 else 0

/-! ## Inputs and closures of the other tests -/

/-- A map in which the value `5` sits under two keys, enumerated as key `1`, key `2`,
key `3`. -/
def twoKeysMap : List (Nat × Nat) :=
  [(1, 5), (2, 5), (3, 7)]

/-- The same map enumerated in the opposite order. -/
def twoKeysMapReversed : List (Nat × Nat) :=
  [(3, 7), (2, 5), (1, 5)]

/-- On a string of decimal digits `strconv.Atoi` returns the number they denote; this is
the transform closure of `TestTransformReduce` on such strings. -/
def atoiDigits (text : String) : Int :=
  text.toList.foldl (fun acc c => 10 * acc + ((c.toNat : Int) - 48)) 0

/-! ## Visitors: declared actions, threaded state, test closures -/

/-- An action is one of the three declared constants of `ForeachAction`. -/
def ValidAction (action : ForeachAction) : Prop :=
  action = ForeachNoOp ∨ action = ForeachBreak ∨ action = ForeachContinue

/-- Whether an action is declared is a comparison with three constants. -/
instance ValidAction.decidable (action : ForeachAction) : Decidable (ValidAction action) :=
  inferInstanceAs
    (Decidable (action = ForeachNoOp ∨ action = ForeachBreak ∨ action = ForeachContinue))

/-- The state a visitor is left in when it is called once on each `(index, element)` of
`calls`, in the order of `calls`. -/
def visitedState {T σ : Type} (visitor : Nat → T → σ → ForeachAction × σ)
    (calls : List (Nat × T)) (s : σ) : σ :=
  calls.foldl (fun st p => (visitor p.1 p.2 st).2) s

/-- A visitor of `Zip`, seen as a visitor of pairs `(arr1[index], arr2[index])`. -/
def zipVisitor {T U σ : Type} (visitor : Nat → T → U → σ → ForeachAction × σ) :
    Nat → T × U → σ → ForeachAction × σ :=
  fun index p st => visitor index p.1 p.2 st

/-- The slice `arr1` of `TestForeach`. -/
def foreachTestInput : List Int :=
  [0, 1, 2, 3, 4, 5, 6, 7, 8, 9, 10]

/-- The visitor of `TestForeach`: appends `x*x` to `result1` and returns `ForeachNoOp`. -/
def squareCollector : Nat → Int → List Int → ForeachAction × List Int :=
  fun _ x result1 => (ForeachNoOp, result1 ++ [wrapInt (x * x)])

/-- A visitor that appends its element to a list and returns `ForeachBreak` every time. -/
def breakingCollector : Nat → Int → List Int → ForeachAction × List Int :=
  fun _ x seen => (ForeachBreak, seen ++ [x])

/-- The visitor of `TestZip`: appends `y` to `result` when `x*x == y`, returns
`ForeachNoOp`. -/
def squareMatcher : Nat → Int → Int → List Int → ForeachAction × List Int :=
  fun _ x y result => (ForeachNoOp, if wrapInt (x * x) = y then result ++ [y] else result)

/-- A visitor that counts its invocations and returns the undeclared action `3`. -/
def countingInvalidVisitor : Nat → Int → Int → Nat → ForeachAction × Nat :=
  fun _ _ _ calls => (3, calls + 1)

/-! ## Embedding of `cgorithm.go`: predicates, counting, generation, maps -/

/-- Loop of `All`: returns `false` at the first element that fails the predicate. -/
def All.loop {T : Type} (predicate : Nat → T → Bool) : Nat → List T → Bool
  | _, [] => true
  | index, element :: rest =>
    if !predicate index element then false else All.loop predicate (index + 1) rest

/-- Go `All`. -/
def All {T : Type} (arr : List T) (predicate : Nat → T → Bool) : Bool :=
  All.loop predicate 0 arr

/-- Go `Any`: returns `true` at the first element that meets the predicate, which takes
the value only. -/
def Any {T : Type} : List T → (T → Bool) → Bool
  | [], _ => false
  | element :: rest, predicate => if predicate element then true else Any rest predicate

/-- Inner loop of `AllSatisfy` for one `(index1, element1)`: `false` when the function
returns `false` from inside it, `true` when the loop runs to its end. -/
def AllSatisfy.inner {T U : Type} (predicate : Nat → Nat → T → U → Bool) (index1 : Nat)
    (element1 : T) : Nat → List U → Bool
  | _, [] => true
  | index2, element2 :: rest =>
    if !predicate index1 index2 element1 element2 then false
    else AllSatisfy.inner predicate index1 element1 (index2 + 1) rest

/-- Outer loop of `AllSatisfy`. -/
def AllSatisfy.loop {T U : Type} (arr2 : List U) (predicate : Nat → Nat → T → U → Bool) :
    Nat → List T → Bool
  | _, [] => true
  | index1, element1 :: rest =>
    if AllSatisfy.inner predicate index1 element1 0 arr2 then
      AllSatisfy.loop arr2 predicate (index1 + 1) rest
    else false

/-- Go `AllSatisfy`. -/
def AllSatisfy {T U : Type} (arr1 : List T) (arr2 : List U)
    (predicate : Nat → Nat → T → U → Bool) : Bool :=
  AllSatisfy.loop arr2 predicate 0 arr1

/-- Inner loop of `AnySatisfy` for one `(index1, element1)`: `true` when the function
returns `true` from inside it, `false` when the loop runs to its end. -/
def AnySatisfy.inner {T U : Type} (predicate : Nat → Nat → T → U → Bool) (index1 : Nat)
    (element1 : T) : Nat → List U → Bool
  | _, [] => false
  | index2, element2 :: rest =>
    if predicate index1 index2 element1 element2 then true
    else AnySatisfy.inner predicate index1 element1 (index2 + 1) rest

/-- Outer loop of `AnySatisfy`. -/
def AnySatisfy.loop {T U : Type} (arr2 : List U) (predicate : Nat → Nat → T → U → Bool) :
    Nat → List T → Bool
  | _, [] => false
  | index1, element1 :: rest =>
    if AnySatisfy.inner predicate index1 element1 0 arr2 then true
    else AnySatisfy.loop arr2 predicate (index1 + 1) rest

/-- Go `AnySatisfy`. -/
def AnySatisfy {T U : Type} (arr1 : List T) (arr2 : List U)
    (predicate : Nat → Nat → T → U → Bool) : Bool :=
  AnySatisfy.loop arr2 predicate 0 arr1

/-- Loop of `Count`: `result++` for every `x == element`. -/
def Count.loop {T : Type} [DecidableEq T] (element : T) : List T → Nat → Nat
  | [], result => result
  | x :: rest, result =>
    if x = element then Count.loop element rest (result + 1) else Count.loop element rest result

/-- Go `Count`: `result := 0`, then the loop over `range arr`. -/
def Count {T : Type} [DecidableEq T] (arr : List T) (element : T) : Nat :=
  Count.loop element arr 0

/-- Loop of `Generate`: the assignment `result[i] = predicate(i)`, which panics when `i` is
not an index of `result`. -/
def Generate.loop {T : Type} (predicate : Nat → T) : List Nat → List T → Option (List T)
  | [], result => some result
  | i :: rest, result =>
    if i < result.length then Generate.loop predicate rest (result.set i (predicate i))
    else none

/-- Go's built-in `make([]T, n)`, whose code is the runtime's and not this repository's,
with the allocation limit as a parameter: `maxLen` is the largest length for which `make`
returns a slice of the element type. The runtime panics (`makeslice: len out of range`)
for a negative `n` and for an `n` whose byte size exceeds `maxAlloc`, which is `2^48`
bytes on a 64-bit target, so `maxLen` is at most `2^48 / sizeof(T)` for elements of
non-zero size, and it is less where memory is short. Within the limit `make` gives `n`
zero values (`default`). -/
def makeSlice {T : Type} [Inhabited T] (maxLen : Nat) (n : Int) : Option (List T) :=
  if n < 0 then none
  else if n > (maxLen : Int) then none
  else some (List.replicate n.toNat default)

/-- The most that `make([]int, n)` allocates on a 64-bit target: `maxAlloc / 8 = 2^45`
elements. -/
def maxLenInt : Nat :=
  35184372088832

/-- Go `Generate`: `result := make([]T, count)`, then `for i := 0; i < count; i++`. -/
def Generate {T : Type} [Inhabited T] (maxLen : Nat) (count : Int) (predicate : Nat → T) :
    Option (List T) :=
  match makeSlice maxLen count with
  | none => none
  | some result => Generate.loop predicate (List.range count.toNat) result

/-- Loop of `RepeatArray`: `result[i] = elements[i%length]`. The remainder panics when
`length` is zero, the two indexing expressions when out of range. -/
def RepeatArray.loop {T : Type} (elements : List T) (length : Nat) :
    List Nat → List T → Option (List T)
  | [], result => some result
  | i :: rest, result =>
    if length = 0 then none
    else
      match elements[i % length]? with
      | some x =>
        if i < result.length then RepeatArray.loop elements length rest (result.set i x)
        else none
      | none => none

/-- Go `RepeatArray`: `length := len(elements)`; the product `length*count` is an `int`
product, hence wrapped; `result := make([]T, length*count)`; then
`for i := 0; i < length*count; i++`. -/
def RepeatArray {T : Type} [Inhabited T] (maxLen : Nat) (count : Int) (elements : List T) :
    Option (List T) :=
  let length : Nat := elements.length
  let size : Int := wrapInt ((length : Int) * count)
  match makeSlice maxLen size with
  | none => none
  | some result => RepeatArray.loop elements length (List.range size.toNat) result

/-- Go `MAll`, over the entries of `m` in the order the `range` enumerates them. -/
def MAll {TK TV : Type} : List (TK × TV) → (TK → TV → Bool) → Bool
  | [], _ => true
  | (key, value) :: rest, predicate =>
    if !predicate key value then false else MAll rest predicate

/-- Go `MAny`, over the entries of `m` in the order the `range` enumerates them. -/
def MAny {TK TV : Type} : List (TK × TV) → (TK → TV → Bool) → Bool
  | [], _ => false
  | (key, value) :: rest, predicate =>
    if predicate key value then true else MAny rest predicate

/-- Inner loop of `MAllSatisfy` for one entry of `m1`, over one enumeration of `m2`. -/
def MAllSatisfy.inner {TK TV UK UV : Type} (predicate : TK → UK → TV → UV → Bool) (key1 : TK)
    (value1 : TV) : List (UK × UV) → Bool
  | [] => true
  | (key2, value2) :: rest =>
    if !predicate key1 key2 value1 value2 then false
    else MAllSatisfy.inner predicate key1 value1 rest

/-- Outer loop of `MAllSatisfy`. Every outer iteration runs a fresh `range m2`, and Go may
enumerate `m2` in another order each time: `m2 round` is the enumeration of `m2` in the
outer iteration number `round`. -/
def MAllSatisfy.loop {TK TV UK UV : Type} (m2 : Nat → List (UK × UV))
    (predicate : TK → UK → TV → UV → Bool) : Nat → List (TK × TV) → Bool
  | _, [] => true
  | round, (key1, value1) :: rest =>
    if MAllSatisfy.inner predicate key1 value1 (m2 round) then
      MAllSatisfy.loop m2 predicate (round + 1) rest
    else false

/-- Go `MAllSatisfy`. -/
def MAllSatisfy {TK TV UK UV : Type} (m1 : List (TK × TV)) (m2 : Nat → List (UK × UV))
    (predicate : TK → UK → TV → UV → Bool) : Bool :=
  MAllSatisfy.loop m2 predicate 0 m1

/-- Inner loop of `MAnySatisfy` for one entry of `m1`, over one enumeration of `m2`. -/
def MAnySatisfy.inner {TK TV UK UV : Type} (predicate : TK → UK → TV → UV → Bool) (key1 : TK)
    (value1 : TV) : List (UK × UV) → Bool
  | [] => false
  | (key2, value2) :: rest =>
    if predicate key1 key2 value1 value2 then true
    else MAnySatisfy.inner predicate key1 value1 rest

/-- Outer loop of `MAnySatisfy`; `m2 round` as in `MAllSatisfy.loop`. -/
def MAnySatisfy.loop {TK TV UK UV : Type} (m2 : Nat → List (UK × UV))
    (predicate : TK → UK → TV → UV → Bool) : Nat → List (TK × TV) → Bool
  | _, [] => false
  | round, (key1, value1) :: rest =>
    if MAnySatisfy.inner predicate key1 value1 (m2 round) then true
    else MAnySatisfy.loop m2 predicate (round + 1) rest

/-- Go `MAnySatisfy`. -/
def MAnySatisfy {TK TV UK UV : Type} (m1 : List (TK × TV)) (m2 : Nat → List (UK × UV))
    (predicate : TK → UK → TV → UV → Bool) : Bool :=
  MAnySatisfy.loop m2 predicate 0 m1

/-- Go's map assignment `result[key] = value` on a map held as its list of entries: the
entry of `key` is overwritten when there is one, and added otherwise. -/
def mapAssign {K V : Type} [DecidableEq K] : List (K × V) → K → V → List (K × V)
  | [], key, value => [(key, value)]
  | (k, v) :: rest, key, value =>
    if k = key then (key, value) :: rest else (k, v) :: mapAssign rest key value

/-- Loop of `MTransform`: `rkey, rvalue := predicate(key, value); result[rkey] = rvalue`. -/
def MTransform.loop {TK TV UK UV : Type} [DecidableEq UK] (predicate : TK → TV → UK × UV) :
    List (TK × TV) → List (UK × UV) → List (UK × UV)
  | [], result => result
  | (key, value) :: rest, result =>
    MTransform.loop predicate rest
      (mapAssign result (predicate key value).1 (predicate key value).2)

/-- Go `MTransform`: `result := map[UK]UV{}`, then the loop over `range m`. -/
def MTransform {TK TV UK UV : Type} [DecidableEq UK] (m : List (TK × TV))
    (predicate : TK → TV → UK × UV) : List (UK × UV) :=
  MTransform.loop predicate m []

/-- Body of the inner loop of `Qsort` with a record of the comparator call: the call
`predicate(i, j, result[j], result[j+1])` is appended to the log as `(i, j, a, b)`, the
two index arguments followed by the two elements. -/
def QsortTraced.step {T : Type} (predicate : Nat → Nat → T → T → Int) (i j : Nat)
    (st : List T × List (Nat × Nat × T × T)) : Option (List T × List (Nat × Nat × T × T)) :=
  match st.1[j]?, st.1[j + 1]? with
  | some a, some b =>
    if predicate i j a b > 0 then
      some ((st.1.set j b).set (j + 1) a, st.2 ++ [(i, j, a, b)])
    else some (st.1, st.2 ++ [(i, j, a, b)])
  | _, _ => none

/-- Inner loop of `Qsort`, with the record of calls. -/
def QsortTraced.pass {T : Type} (predicate : Nat → Nat → T → T → Int) (n : Int) (i : Nat)
    (st : List T × List (Nat × Nat × T × T)) : Option (List T × List (Nat × Nat × T × T)) :=
  (List.range n.toNat).foldlM (fun st j => QsortTraced.step predicate i j st) st

/-- Go `Qsort`, returning the sorted slice together with the comparator calls it made, in
the order it made them. -/
def QsortTraced {T : Type} (arr : List T) (predicate : Nat → Nat → T → T → Int) :
    Option (List T × List (Nat × Nat × T × T)) :=
  let n : Int := (arr.length : Int) - 1
  (List.range n.toNat).foldlM (fun st i => QsortTraced.pass predicate n i st) (arr, [])

/-! ## Inputs of the tests of these functions -/

/-- The slice `arr1` of `TestCount`. -/
def countTestInput : List Bool :=
  [true, true, false, true, false, true, false, true, true, false,
   true, false, false, false, false]

/-- A map of numbers to their squares, a part of `m1` of `TestMAll`. -/
def squaresMap : List (Int × Int) :=
  [(0, 0), (1, 1), (2, 4), (3, 9)]

/-- The same map enumerated in another order. -/
def squaresMapShuffled : List (Int × Int) :=
  [(2, 4), (0, 0), (3, 9), (1, 1)]

/-! ## Stability of `Qsort`: ranks and a tagged input -/

/-- Whether the comparator orders neither of `x` and `y` strictly before the other:
`cmp(x, y) <= 0` and `cmp(y, x) <= 0`. -/
def sameRank {T : Type} (cmp : Nat → Nat → T → T → Int) (x y : T) : Bool :=
  decide (cmp 0 0 x y ≤ 0 ∧ cmp 0 0 y x ≤ 0)

/-- A comparator on records `(key, tag)` that compares the keys only: `a.key - b.key`. -/
def cmpByKey : Nat → Nat → Int × Nat → Int × Nat → Int :=
  fun _ _ a b => a.1 - b.1

/-- Records with the keys `2, 1, 2, 1, 2`, each tagged with its position. -/
def taggedInput : List (Int × Nat) :=
  [(2, 0), (1, 1), (2, 2), (1, 3), (2, 4)]

/-! ## Sorting: the index loops and the structural pass agree -/

theorem step_at {T : Type} (predicate : Nat → Nat → T → T → Int) (i : Nat)
    (pre : List T) (a b : T) (rest : List T) :
    Qsort.step predicate i pre.length (pre ++ a :: b :: rest) =
      some (if predicate i pre.length a b > 0 then pre ++ b :: a :: rest
            else pre ++ a :: b :: rest) := by
  unfold Qsort.step
  have h1 : (pre ++ a :: b :: rest)[pre.length]? = some a := by
    rw [List.getElem?_append_right (Nat.le_refl _)]
    simp
  have h2 : (pre ++ a :: b :: rest)[pre.length + 1]? = some b := by
    rw [List.getElem?_append_right (by omega)]
    simp
  rw [h1, h2]
  simp only
  split
  · congr 1
    simp [List.set_append]
  · rfl

theorem fold_steps {T : Type} (predicate : Nat → Nat → T → T → Int) (i : Nat) :
    ∀ (rest pre : List T) (a : T),
      (List.range' pre.length rest.length).foldlM
          (fun result j => Qsort.step predicate i j result) (pre ++ a :: rest) =
        some (pre ++ bubbleFrom predicate i pre.length a rest)
  | [], pre, a => by simp [bubbleFrom]
  | b :: rest, pre, a => by
    simp only [List.length_cons, List.range'_succ, List.foldlM_cons, step_at, Option.bind_eq_bind,
      Option.some_bind, bubbleFrom]
    split
    · have := fold_steps predicate i rest (pre ++ [b]) a
      simp only [List.length_append, List.length_singleton, List.append_assoc,
        List.singleton_append] at this
      rw [this]
    · have := fold_steps predicate i rest (pre ++ [a]) b
      simp only [List.length_append, List.length_singleton, List.append_assoc,
        List.singleton_append] at this
      rw [this]

theorem pass_cons {T : Type} (predicate : Nat → Nat → T → T → Int) (i : Nat) (a : T)
    (rest : List T) :
    Qsort.pass predicate (((a :: rest).length : Int) - 1) i (a :: rest) =
      some (bubbleFrom predicate i 0 a rest) := by
  unfold Qsort.pass
  have h : (((a :: rest).length : Int) - 1).toNat = rest.length := by
    simp
  rw [h, List.range_eq_range']
  exact fold_steps predicate i rest [] a

theorem bubbleFrom_perm {T : Type} (predicate : Nat → Nat → T → T → Int) (i : Nat) :
    ∀ (rest : List T) (j : Nat) (a : T), (bubbleFrom predicate i j a rest).Perm (a :: rest)
  | [], _, _ => by simp [bubbleFrom]
  | b :: rest, j, a => by
    unfold bubbleFrom
    split
    · exact ((bubbleFrom_perm predicate i rest (j + 1) a).cons b).trans (List.Perm.swap a b rest)
    · exact (bubbleFrom_perm predicate i rest (j + 1) b).cons a

theorem bubbleList_perm {T : Type} (predicate : Nat → Nat → T → T → Int) (i : Nat)
    (l : List T) : (bubbleList predicate i l).Perm l := by
  cases l with
  | nil => exact List.Perm.refl _
  | cons a rest => exact bubbleFrom_perm predicate i rest 0 a

theorem pass_eq_bubbleList {T : Type} (predicate : Nat → Nat → T → T → Int) (i : Nat)
    (l : List T) :
    Qsort.pass predicate ((l.length : Int) - 1) i l = some (bubbleList predicate i l) := by
  cases l with
  | nil => simp [Qsort.pass, bubbleList]
  | cons a rest => exact pass_cons predicate i a rest

theorem passes_eq {T : Type} (predicate : Nat → Nat → T → T → Int) (n : Int) :
    ∀ (is : List Nat) (l : List T), (l.length : Int) - 1 = n →
      is.foldlM (fun result i => Qsort.pass predicate n i result) l =
        some (is.foldl (fun result i => bubbleList predicate i result) l)
  | [], _, _ => rfl
  | i :: is, l, h => by
    have hp := pass_eq_bubbleList predicate i l
    rw [h] at hp
    simp only [List.foldlM_cons, List.foldl_cons, hp, Option.bind_eq_bind, Option.some_bind]
    apply passes_eq predicate n is
    rw [(bubbleList_perm predicate i l).length_eq]
    exact h

/-- `Qsort` never fails, and its result is the structural pass iterated `len - 1` times. -/
theorem Qsort_eq_passes {T : Type} (arr : List T) (predicate : Nat → Nat → T → T → Int) :
    Qsort arr predicate =
      some ((List.range (arr.length - 1)).foldl
        (fun result i => bubbleList predicate i result) arr) := by
  unfold Qsort
  have h : ((arr.length : Int) - 1).toNat = arr.length - 1 := by omega
  simp only [h]
  exact passes_eq predicate _ _ arr rfl

theorem passes_perm {T : Type} (predicate : Nat → Nat → T → T → Int) :
    ∀ (is : List Nat) (l : List T),
      (is.foldl (fun result i => bubbleList predicate i result) l).Perm l
  | [], _ => List.Perm.refl _
  | i :: is, l => (passes_perm predicate is _).trans (bubbleList_perm predicate i l)

/-! ## Sorting: `len - 1` passes sort under a total preorder -/

theorem bubbleFrom_sorted_tail {T : Type} (predicate : Nat → Nat → T → T → Int)
    (le : T → T → Prop) (hle : ∀ i j a b, 0 < predicate i j a b ↔ ¬ le a b) (i : Nat) :
    ∀ (back : List T) (j : Nat) (a : T), (∀ y ∈ back, le a y) → back.Pairwise le →
      bubbleFrom predicate i j a back = a :: back
  | [], _, _, _, _ => rfl
  | b :: rest, j, a, h, hp => by
    have hab : le a b := h b (List.mem_cons_self _ _)
    have hn : ¬ (predicate i j a b > 0) := fun hc => ((hle i j a b).1 hc) hab
    rw [bubbleFrom, if_neg hn,
      bubbleFrom_sorted_tail predicate le hle i rest (j + 1) b
        (fun y hy => List.rel_of_pairwise_cons hp hy) (List.Pairwise.of_cons hp)]

theorem bubbleFrom_append {T : Type} (predicate : Nat → Nat → T → T → Int)
    (le : T → T → Prop) (hle : ∀ i j a b, 0 < predicate i j a b ↔ ¬ le a b) (i : Nat) :
    ∀ (front back : List T) (j : Nat) (a : T),
      (∀ x ∈ a :: front, ∀ y ∈ back, le x y) → back.Pairwise le →
      bubbleFrom predicate i j a (front ++ back) = bubbleFrom predicate i j a front ++ back
  | [], back, j, a, h, hp => by
    simpa [bubbleFrom] using
      bubbleFrom_sorted_tail predicate le hle i back j a (h a (List.mem_cons_self _ _)) hp
  | b :: front, back, j, a, h, hp => by
    have ha := bubbleFrom_append predicate le hle i front back (j + 1) a
      (fun x hx y hy => h x (by
        rcases List.mem_cons.1 hx with rfl | hx
        · exact List.mem_cons_self _ _
        · exact List.mem_cons_of_mem _ (List.mem_cons_of_mem _ hx)) y hy) hp
    have hb := bubbleFrom_append predicate le hle i front back (j + 1) b
      (fun x hx y hy => h x (List.mem_cons_of_mem _ hx) y hy) hp
    rw [List.cons_append, bubbleFrom, bubbleFrom]
    by_cases hc : predicate i j a b > 0
    · rw [if_pos hc, if_pos hc, ha]; rfl
    · rw [if_neg hc, if_neg hc, hb]; rfl

theorem bubbleFrom_last_max {T : Type} (predicate : Nat → Nat → T → T → Int)
    (le : T → T → Prop) (hle : ∀ i j a b, 0 < predicate i j a b ↔ ¬ le a b)
    (htotal : ∀ a b, le a b ∨ le b a) (htrans : ∀ a b c, le a b → le b c → le a c) (i : Nat) :
    ∀ (l : List T) (j : Nat) (a : T),
      ∃ init m, bubbleFrom predicate i j a l = init ++ [m] ∧ le a m ∧ ∀ x ∈ init, le x m
  | [], _, a => ⟨[], a, rfl, (htotal a a).elim id id, by simp⟩
  | b :: rest, j, a => by
    unfold bubbleFrom
    split
    · rename_i h
      obtain ⟨init, m, he, ham, hinit⟩ :=
        bubbleFrom_last_max predicate le hle htotal htrans i rest (j + 1) a
      have hba : le b a := (htotal a b).resolve_left ((hle i j a b).1 h)
      refine ⟨b :: init, m, by rw [he]; rfl, ham, ?_⟩
      intro x hx
      rcases List.mem_cons.1 hx with rfl | hx
      · exact htrans _ _ _ hba ham
      · exact hinit x hx
    · rename_i h
      obtain ⟨init, m, he, hbm, hinit⟩ :=
        bubbleFrom_last_max predicate le hle htotal htrans i rest (j + 1) b
      have hab : le a b := by
        by_contra hc
        exact h ((hle i j a b).2 hc)
      refine ⟨a :: init, m, by rw [he]; rfl, htrans _ _ _ hab hbm, ?_⟩
      intro x hx
      rcases List.mem_cons.1 hx with rfl | hx
      · exact htrans _ _ _ hab hbm
      · exact hinit x hx

theorem passInv_step {T : Type} (predicate : Nat → Nat → T → T → Int)
    (le : T → T → Prop) (hle : ∀ i j a b, 0 < predicate i j a b ↔ ¬ le a b)
    (htotal : ∀ a b, le a b ∨ le b a) (htrans : ∀ a b c, le a b → le b c → le a c)
    (i k : Nat) (l : List T) (h : PassInv le k l) :
    PassInv le (k + 1) (bubbleList predicate i l) := by
  obtain ⟨front, back, rfl, hp, hfb, hlen⟩ := h
  cases front with
  | nil =>
    refine ⟨[], bubbleList predicate i ([] ++ back), by simp, ?_, by simp, by simp⟩
    cases back with
    | nil => simp [bubbleList]
    | cons b back =>
      simp only [List.nil_append, bubbleList]
      rw [bubbleFrom_sorted_tail predicate le hle i back 0 b
        (fun y hy => List.rel_of_pairwise_cons hp hy) (List.Pairwise.of_cons hp)]
      exact hp
  | cons a front =>
    simp only [List.cons_append, bubbleList]
    rw [bubbleFrom_append predicate le hle i front back 0 a hfb hp]
    obtain ⟨init, m, he, -, hinit⟩ :=
      bubbleFrom_last_max predicate le hle htotal htrans i front 0 a
    have hperm : (init ++ [m]).Perm (a :: front) := he ▸ bubbleFrom_perm predicate i front 0 a
    have hmem : ∀ x, x ∈ init ++ [m] → x ∈ a :: front := fun x hx => hperm.subset hx
    rw [he]
    refine ⟨init, m :: back, by simp, ?_, ?_, ?_⟩
    · exact List.pairwise_cons.2 ⟨fun y hy => hfb m (hmem m (by simp)) y hy, hp⟩
    · intro x hx y hy
      rcases List.mem_cons.1 hy with rfl | hy
      · exact hinit x hx
      · exact hfb x (hmem x (by simp [hx])) y hy
    · have h1 := hperm.length_eq
      simp only [List.length_append, List.length_cons, List.length_singleton,
        List.length_nil] at h1 hlen ⊢
      omega

theorem passInv_fold {T : Type} (predicate : Nat → Nat → T → T → Int)
    (le : T → T → Prop) (hle : ∀ i j a b, 0 < predicate i j a b ↔ ¬ le a b)
    (htotal : ∀ a b, le a b ∨ le b a) (htrans : ∀ a b c, le a b → le b c → le a c) :
    ∀ (is : List Nat) (k : Nat) (l : List T), PassInv le k l →
      PassInv le (k + is.length) (is.foldl (fun result i => bubbleList predicate i result) l)
  | [], _, _, h => h
  | i :: is, k, l, h => by
    have := passInv_fold predicate le hle htotal htrans is (k + 1) _
      (passInv_step predicate le hle htotal htrans i k l h)
    simpa [Nat.add_assoc, Nat.add_comm 1] using this

theorem passes_sorted {T : Type} (predicate : Nat → Nat → T → T → Int)
    (le : T → T → Prop) (hle : ∀ i j a b, 0 < predicate i j a b ↔ ¬ le a b)
    (htotal : ∀ a b, le a b ∨ le b a) (htrans : ∀ a b c, le a b → le b c → le a c)
    (l : List T) :
    ((List.range (l.length - 1)).foldl
      (fun result i => bubbleList predicate i result) l).Pairwise le := by
  have h0 : PassInv le 0 l := ⟨l, [], by simp, List.Pairwise.nil, by simp, by simp⟩
  have h := passInv_fold predicate le hle htotal htrans (List.range (l.length - 1)) 0 l h0
  obtain ⟨front, back, he, hp, hfb, hlen⟩ := h
  rw [he] at hlen ⊢
  have hl : (front ++ back).length = l.length := by
    rw [← he]; exact (passes_perm predicate _ l).length_eq
  rw [hl] at hlen
  simp only [List.length_range, Nat.zero_add] at hlen
  have hf : front.length ≤ 1 := by omega
  refine List.pairwise_append.2 ⟨?_, hp, hfb⟩
  match front, hf with
  | [], _ => exact List.Pairwise.nil
  | [x], _ => exact List.pairwise_singleton _ _

theorem pairwise_adjacent {T : Type} (le : T → T → Prop) (r : List T) (h : r.Pairwise le)
    (k : Nat) (a b : T) (ha : r[k]? = some a) (hb : r[k + 1]? = some b) : le a b := by
  obtain ⟨hk, rfl⟩ := List.getElem?_eq_some.1 ha
  obtain ⟨hk1, rfl⟩ := List.getElem?_eq_some.1 hb
  exact List.pairwise_iff_getElem.1 h k (k + 1) hk hk1 (Nat.lt_succ_self k)

/-- `Qsort` with a comparator whose sign is that of a total preorder `le`: the result
exists, is a permutation of the input and is pairwise ordered. -/
theorem Qsort_sorted_of_le {T : Type} (predicate : Nat → Nat → T → T → Int)
    (le : T → T → Prop) (hle : ∀ i j a b, 0 < predicate i j a b ↔ ¬ le a b)
    (htotal : ∀ a b, le a b ∨ le b a) (htrans : ∀ a b c, le a b → le b c → le a c)
    (arr : List T) :
    ∃ r, Qsort arr predicate = some r ∧ r.Perm arr ∧ r.Pairwise le :=
  ⟨_, Qsort_eq_passes arr predicate, passes_perm predicate _ arr,
    passes_sorted predicate le hle htotal htrans arr⟩

theorem SortSlice_eq_Qsort {T : Type} [LinearOrder T] (arr : List T) :
    SortSlice arr = Qsort arr cmpNatural := by
  have hstep : ∀ (i j : Nat) (result : List T),
      SortSlice.step j result = Qsort.step cmpNatural i j result := by
    intro i j result
    unfold SortSlice.step Qsort.step cmpNatural
    cases result[j]? <;> cases result[j + 1]? <;> simp only
    rename_i a b
    by_cases h : a > b <;> simp [h]
  have hpass : ∀ (n : Int) (i : Nat) (result : List T),
      SortSlice.pass n result = Qsort.pass cmpNatural n i result := by
    intro n i result
    unfold SortSlice.pass Qsort.pass
    congr 1
    funext result j
    exact hstep i j result
  unfold SortSlice Qsort
  simp only
  congr 1
  funext result i
  exact hpass _ i result

/-! ## Sorting: `Qsort` and `Sort` -/

/-- C1. For every sequence and every comparator that ignores its two index arguments and
is the three-way comparator of a total preorder (total and transitive, `cmp a b > 0`
exactly when `a` must follow `b`), `Qsort` returns a result, the result is a permutation of
the input, and no adjacent pair of it is out of order: `cmp(_, _, r[k], r[k+1]) <= 0` for
every `k`. So the `n-1` passes of `n-1` adjacent comparisons always suffice. -/
theorem Qsort_sorts_total_preorder {T : Type} (seq : List T) (cmp : Nat → Nat → T → T → Int)
    (hidx : ∀ i j i2 j2 a b, cmp i j a b = cmp i2 j2 a b)
    (htotal : ∀ a b, cmp 0 0 a b ≤ 0 ∨ cmp 0 0 b a ≤ 0)
    (htrans : ∀ a b c, cmp 0 0 a b ≤ 0 → cmp 0 0 b c ≤ 0 → cmp 0 0 a c ≤ 0) :
    ∃ r, Qsort seq cmp = some r ∧ r.Perm seq ∧
      ∀ (k : Nat) (a b : T), r[k]? = some a → r[k + 1]? = some b →
        ∀ i j, cmp i j a b ≤ 0 := by
  have hle : ∀ i j a b, 0 < cmp i j a b ↔ ¬ (cmp 0 0 a b ≤ 0) := by
    intro i j a b
    rw [hidx i j 0 0 a b]
    omega
  obtain ⟨r, hr, hperm, hsorted⟩ :=
    Qsort_sorted_of_le cmp (fun a b => cmp 0 0 a b ≤ 0) hle htotal htrans seq
  refine ⟨r, hr, hperm, ?_⟩
  intro k a b ha hb i j
  rw [hidx i j 0 0 a b]
  exact pairwise_adjacent _ r hsorted k a b ha hb

/-- C1, at the inputs of `TestQsort`: the ascending comparator `x - y` meets the
hypotheses, `Qsort` turns `[37,53,74,7,66,62,79,66,26,4]` into `[4,7,26,37,53,62,66,66,74,79]`,
and the descending comparator `y - x` gives the reverse. -/
theorem Qsort_sorts_test_input :
    (∃ r, Qsort qsortTestInput cmpAscending = some r ∧ r.Perm qsortTestInput ∧
      ∀ (k : Nat) (a b : Int), r[k]? = some a → r[k + 1]? = some b →
        ∀ i j, cmpAscending i j a b ≤ 0) ∧
    Qsort qsortTestInput cmpAscending = some [4, 7, 26, 37, 53, 62, 66, 66, 74, 79] ∧
    Qsort qsortTestInput cmpDescending = some [79, 74, 66, 66, 62, 53, 37, 26, 7, 4] ∧
    Qsort qsortTestInput (fun _ _ x y => wrapInt (x - y)) =
      some [4, 7, 26, 37, 53, 62, 66, 66, 74, 79] ∧
    Qsort qsortTestInput (fun _ _ x y => wrapInt (y - x)) =
      some [79, 74, 66, 66, 62, 53, 37, 26, 7, 4] :=
  ⟨Qsort_sorts_total_preorder qsortTestInput cmpAscending
      (fun _ _ _ _ _ _ => rfl)
      (fun a b => by unfold cmpAscending; omega)
      (fun a b c => by unfold cmpAscending; omega),
    by decide, by decide, by decide, by decide⟩

/-- C2. For every sequence over a totally ordered element type, `Sort` returns a result,
the result is a permutation of the input and is ascending (`r[k] <= r[k+1]` for every
adjacent pair); the empty and the one-element sequence are returned as they are. -/
theorem SortSlice_sorts_ascending {T : Type} [LinearOrder T] (seq : List T) :
    (∃ r, SortSlice seq = some r ∧ r.Perm seq ∧
      ∀ (k : Nat) (a b : T), r[k]? = some a → r[k + 1]? = some b → a ≤ b) ∧
    SortSlice ([] : List T) = some [] ∧ ∀ x : T, SortSlice [x] = some [x] := by
  refine ⟨?_, ?_, ?_⟩
  · have hle : ∀ (i j : Nat) (a b : T), 0 < cmpNatural i j a b ↔ ¬ a ≤ b := by
      intro i j a b
      unfold cmpNatural
      by_cases h : a > b
      · simp [h]
      · simp [h, not_lt.1 h]
    obtain ⟨r, hr, hperm, hsorted⟩ :=
      Qsort_sorted_of_le cmpNatural (fun a b : T => a ≤ b) hle le_total
        (fun _ _ _ => le_trans) seq
    exact ⟨r, (SortSlice_eq_Qsort seq).trans hr, hperm,
      fun k a b ha hb => pairwise_adjacent _ r hsorted k a b ha hb⟩
  · rfl
  · intro x
    rfl

/-! ## Maps: `MFindK` and `MFindV` -/

theorem MFindV_loop_eq {TK TV : Type} [DecidableEq TV] (element : TV) :
    ∀ (m : List (TK × TV)) (result : List TK),
      MFindV.loop element m result =
        result ++ (m.filter (fun p => decide (p.2 = element))).map Prod.fst
  | [], result => by simp [MFindV.loop]
  | (key, value) :: rest, result => by
    unfold MFindV.loop
    by_cases h : value = element
    · simp [h, MFindV_loop_eq element rest]
    · simp [h, MFindV_loop_eq element rest]

theorem MFindV_eq_filter {TK TV : Type} [DecidableEq TV] (m : List (TK × TV)) (element : TV) :
    MFindV m element = (m.filter (fun p => decide (p.2 = element))).map Prod.fst := by
  simp [MFindV, MFindV_loop_eq]

theorem MFindK_eq_take {TK TV : Type} [DecidableEq TV] (element : TV) :
    ∀ (m : List (TK × TV)),
      MFindK m element =
        ((m.filter (fun p => decide (p.2 = element))).map Prod.fst).take 1
  | [] => rfl
  | (key, value) :: rest => by
    unfold MFindK
    by_cases h : value = element
    · simp [h]
    · simp [h, MFindK_eq_take element rest]

/-- C3, refuted as stated: in the map `1 ↦ 5, 2 ↦ 5, 3 ↦ 7` the value `5` sits under the
keys `1` and `2`, yet `MFindK` returns the single key that is enumerated first, in either
enumeration order, so the returned keys are not the set of keys whose value is `5`. -/
theorem MFindK_misses_second_key :
    MFindK twoKeysMap 5 = [1] ∧ MFindK twoKeysMapReversed 5 = [2] ∧
    (twoKeysMap.map Prod.fst).Nodup ∧ twoKeysMapReversed.Perm twoKeysMap ∧
    ¬ (∀ k : Nat, k ∈ MFindK twoKeysMap 5 ↔ (k, 5) ∈ twoKeysMap) ∧
    ¬ (∀ k : Nat, k ∈ MFindK twoKeysMapReversed 5 ↔ (k, 5) ∈ twoKeysMapReversed) := by
  refine ⟨by decide, by decide, by decide, by decide, ?_, ?_⟩
  · intro h
    exact absurd ((h 2).2 (by decide)) (by decide)
  · intro h
    exact absurd ((h 1).2 (by decide)) (by decide)

/-- C3, amended. For every mapping `m` (its entries in any enumeration order, keys
distinct) and every target value `e`: `MFindK(m, e)` returns at most one key, namely the
empty list exactly when no value of `m` equals `e`, and otherwise the one key that is
enumerated first among the keys whose value equals `e` (the first key of `MFindV(m, e)`);
every key it returns has value `e`. It is `MFindV(m, e)` that returns exactly the set
`{k | m[k] == e}`, each key once. -/
theorem MFindK_first_MFindV_every_key {TK TV : Type} [DecidableEq TV] (m : List (TK × TV))
    (e : TV) (hm : (m.map Prod.fst).Nodup) :
    (MFindK m e).length ≤ 1 ∧
    (MFindK m e = [] ↔ ∀ k, (k, e) ∉ m) ∧
    (∀ k, k ∈ MFindK m e → (k, e) ∈ m) ∧
    MFindK m e = (MFindV m e).take 1 ∧
    (∀ k, k ∈ MFindV m e ↔ (k, e) ∈ m) ∧
    (MFindV m e).Nodup := by
  have hmem : ∀ k, k ∈ MFindV m e ↔ (k, e) ∈ m := by
    intro k
    rw [MFindV_eq_filter]
    simp only [List.mem_map, List.mem_filter, decide_eq_true_eq]
    constructor
    · rintro ⟨⟨k2, v⟩, ⟨hin, hv⟩, hk⟩
      simp only at hv hk
      subst hv hk
      exact hin
    · intro hin
      exact ⟨(k, e), ⟨hin, rfl⟩, rfl⟩
  have htake : MFindK m e = (MFindV m e).take 1 := by
    rw [MFindK_eq_take, MFindV_eq_filter]
  refine ⟨?_, ?_, ?_, htake, hmem, ?_⟩
  · rw [htake, List.length_take]
    exact Nat.min_le_left _ _
  · rw [htake]
    constructor
    · intro h k hk
      have hk2 := (hmem k).2 hk
      cases hv : MFindV m e with
      | nil => rw [hv] at hk2; exact absurd hk2 (List.not_mem_nil _)
      | cons a l => rw [hv] at h; simp at h
    · intro h
      cases hv : MFindV m e with
      | nil => rfl
      | cons a l =>
        exact absurd ((hmem a).1 (hv ▸ List.mem_cons_self a l)) (h a)
  · intro k hk
    rw [htake] at hk
    exact (hmem k).1 (List.mem_of_mem_take hk)
  · rw [MFindV_eq_filter]
    exact List.Nodup.sublist ((List.filter_sublist m).map Prod.fst) hm

/-- C3 amended, at the map `1 ↦ 5, 2 ↦ 5, 3 ↦ 7` and the value `5`: `MFindK` returns the
one key `1`, `MFindV` the two keys `1` and `2`. -/
theorem MFindK_first_MFindV_every_key_at_twoKeysMap :
    ((MFindK twoKeysMap 5).length ≤ 1 ∧
      (MFindK twoKeysMap 5 = [] ↔ ∀ k, (k, 5) ∉ twoKeysMap) ∧
      (∀ k, k ∈ MFindK twoKeysMap 5 → (k, 5) ∈ twoKeysMap) ∧
      MFindK twoKeysMap 5 = (MFindV twoKeysMap 5).take 1 ∧
      (∀ k, k ∈ MFindV twoKeysMap 5 ↔ (k, 5) ∈ twoKeysMap) ∧
      (MFindV twoKeysMap 5).Nodup) ∧
    MFindK twoKeysMap 5 = [1] ∧ MFindV twoKeysMap 5 = [1, 2] :=
  ⟨MFindK_first_MFindV_every_key twoKeysMap 5 (by decide), by decide, by decide⟩

/-! ## Search: `FindIf` and `Find` -/

theorem FindIf_loop_spec {T : Type} (predicate : Nat → T → Bool) :
    ∀ (l : List T) (k : Nat),
      (FindIf.loop predicate k l = -1 ↔ ∀ i x, l[i]? = some x → predicate (k + i) x = false) ∧
      (FindIf.loop predicate k l ≠ -1 →
        ∃ (i : Nat) (x : T), FindIf.loop predicate k l = ((k + i : Nat) : Int) ∧ l[i]? = some x ∧
          predicate (k + i) x = true ∧
          ∀ j y, j < i → l[j]? = some y → predicate (k + j) y = false)
  | [], k => by simp [FindIf.loop]
  | a :: l, k => by
    obtain ⟨ih1, ih2⟩ := FindIf_loop_spec predicate l (k + 1)
    unfold FindIf.loop
    by_cases h : predicate k a = true
    · rw [if_pos h]
      constructor
      · constructor
        · intro hc
          omega
        · intro hall
          have := hall 0 a (by simp)
          simp [h] at this
      · intro _
        exact ⟨0, a, by simp, by simp, by simpa using h, by intro j y hj; omega⟩
    · rw [if_neg h]
      have hf : predicate k a = false := by simpa using h
      constructor
      · rw [ih1]
        constructor
        · intro hall i x hi
          cases i with
          | zero =>
            simp only [List.getElem?_cons_zero, Option.some.injEq] at hi
            subst hi
            simpa using hf
          | succ i =>
            rw [List.getElem?_cons_succ] at hi
            have := hall i x hi
            rwa [Nat.add_assoc, Nat.add_comm 1 i] at this
        · intro hall i x hi
          have := hall (i + 1) x (by rw [List.getElem?_cons_succ]; exact hi)
          rwa [Nat.add_assoc, Nat.add_comm 1 i]
      · intro hne
        obtain ⟨i, x, he, hx, hp, hmin⟩ := ih2 hne
        refine ⟨i + 1, x, ?_, by rw [List.getElem?_cons_succ]; exact hx, ?_, ?_⟩
        · rw [he]
          congr 1
          omega
        · rwa [Nat.add_assoc, Nat.add_comm 1 i] at hp
        · intro j y hj hy
          cases j with
          | zero =>
            simp only [List.getElem?_cons_zero, Option.some.injEq] at hy
            subst hy
            simpa using hf
          | succ j =>
            rw [List.getElem?_cons_succ] at hy
            have := hmin j y (by omega) hy
            rwa [Nat.add_assoc, Nat.add_comm 1 j] at this

theorem Find_loop_eq_FindIf_loop {T : Type} [DecidableEq T] (element : T) :
    ∀ (l : List T) (k : Nat),
      Find.loop element k l = FindIf.loop (fun _ x => decide (x = element)) k l
  | [], _ => rfl
  | a :: l, k => by
    unfold Find.loop FindIf.loop
    by_cases h : a = element
    · simp [h]
    · simp [h, Find_loop_eq_FindIf_loop element l (k + 1)]

/-- C7. For every sequence and predicate, `FindIf(seq, pred)` is `-1` exactly when
`pred(i, seq[i])` is false at every index `i`, and otherwise it is the smallest index `i`
with `pred(i, seq[i])` true; likewise `Find(seq, e)` is `-1` exactly when `e` does not occur
in `seq`, and otherwise the smallest index `i` with `seq[i] == e`. -/
theorem FindIf_Find_smallest_match {T : Type} [DecidableEq T] (seq : List T)
    (pred : Nat → T → Bool) (e : T) :
    (FindIf seq pred = -1 ↔ ∀ i x, seq[i]? = some x → pred i x = false) ∧
    (FindIf seq pred ≠ -1 →
      ∃ (i : Nat) (x : T), FindIf seq pred = (i : Int) ∧ seq[i]? = some x ∧ pred i x = true ∧
        ∀ j y, j < i → seq[j]? = some y → pred j y = false) ∧
    (Find seq e = -1 ↔ e ∉ seq) ∧
    (Find seq e ≠ -1 →
      ∃ (i : Nat), Find seq e = (i : Int) ∧ seq[i]? = some e ∧
        ∀ j y, j < i → seq[j]? = some y → y ≠ e) := by
  have hf := FindIf_loop_spec pred seq 0
  have hg := FindIf_loop_spec (fun _ x => decide (x = e)) seq 0
  simp only [Nat.zero_add] at hf hg
  have hfind : Find seq e = FindIf.loop (fun _ x => decide (x = e)) 0 seq :=
    Find_loop_eq_FindIf_loop e seq 0
  refine ⟨hf.1, hf.2, ?_, ?_⟩
  · rw [hfind, hg.1]
    constructor
    · intro hall hmem
      obtain ⟨i, hi, rfl⟩ := List.getElem_of_mem hmem
      have := hall i seq[i] (List.getElem?_eq_getElem hi)
      simp at this
    · intro hnot i x hx
      have hxm : x ∈ seq := List.getElem?_mem hx
      simp only [decide_eq_false_iff_not]
      rintro rfl
      exact hnot hxm
  · rw [hfind]
    intro hne
    obtain ⟨i, x, he, hx, hp, hmin⟩ := hg.2 hne
    have hxe : x = e := by simpa using hp
    subst hxe
    refine ⟨i, he, hx, ?_⟩
    intro j y hj hy
    have := hmin j y hj hy
    simpa using this

/-! ## `Filter` and `CountIf` -/

theorem Filter_loop_eq {T : Type} (predicate : Nat → T → Bool) :
    ∀ (l : List T) (k : Nat) (result : List T),
      Filter.loop predicate k l result =
        result ++ ((l.enumFrom k).filter (fun p => predicate p.1 p.2)).map Prod.snd
  | [], _, result => by simp [Filter.loop]
  | a :: l, k, result => by
    unfold Filter.loop
    by_cases h : predicate k a = true
    · rw [if_pos h, Filter_loop_eq predicate l (k + 1), List.enumFrom_cons,
        List.filter_cons_of_pos (by simpa using h)]
      simp
    · rw [if_neg h, Filter_loop_eq predicate l (k + 1), List.enumFrom_cons,
        List.filter_cons_of_neg (by simpa using h)]

theorem CountIf_loop_eq {T : Type} (predicate : Nat → T → Bool) :
    ∀ (l : List T) (k : Nat) (result : Nat),
      CountIf.loop predicate k l result =
        result + ((l.enumFrom k).filter (fun p => predicate p.1 p.2)).length
  | [], _, result => by simp [CountIf.loop]
  | a :: l, k, result => by
    unfold CountIf.loop
    by_cases h : predicate k a = true
    · rw [if_pos h, CountIf_loop_eq predicate l (k + 1), List.enumFrom_cons,
        List.filter_cons_of_pos (by simpa using h), List.length_cons]
      omega
    · rw [if_neg h, CountIf_loop_eq predicate l (k + 1), List.enumFrom_cons,
        List.filter_cons_of_neg (by simpa using h)]

/-- C8. For every sequence and predicate, `Filter(seq, pred)` consists of exactly the
elements `seq[i]` with `pred(i, seq[i])` true, in their original relative order (it is the
indexed sequence filtered by the predicate, hence a subsequence of `seq`), and its length
equals `CountIf(seq, pred)`. -/
theorem Filter_keeps_matches_in_order {T : Type} (seq : List T) (pred : Nat → T → Bool) :
    Filter seq pred = (seq.enum.filter (fun p => pred p.1 p.2)).map Prod.snd ∧
    (Filter seq pred).Sublist seq ∧
    (∀ x, x ∈ Filter seq pred ↔ ∃ i, seq[i]? = some x ∧ pred i x = true) ∧
    (Filter seq pred).length = CountIf seq pred := by
  have hF : Filter seq pred = (seq.enum.filter (fun p => pred p.1 p.2)).map Prod.snd := by
    simp [Filter, Filter_loop_eq, List.enum]
  refine ⟨hF, ?_, ?_, ?_⟩
  · rw [hF]
    have h := (List.filter_sublist (p := fun p : Nat × T => pred p.1 p.2) seq.enum).map Prod.snd
    rwa [List.enum_map_snd] at h
  · intro x
    rw [hF]
    simp only [List.mem_map, List.mem_filter]
    constructor
    · rintro ⟨⟨i, y⟩, ⟨hin, hp⟩, hx⟩
      simp only at hx hp
      subst hx
      obtain ⟨n, hn⟩ := List.getElem?_of_mem hin
      rw [List.getElem?_enum] at hn
      cases hs : seq[n]? with
      | none => rw [hs] at hn; simp at hn
      | some z =>
        rw [hs] at hn
        simp only [Option.map_some', Option.some.injEq, Prod.mk.injEq] at hn
        obtain ⟨rfl, rfl⟩ := hn
        exact ⟨n, hs, hp⟩
    · rintro ⟨i, hi, hp⟩
      refine ⟨(i, x), ⟨?_, hp⟩, rfl⟩
      apply List.getElem?_mem (n := i)
      rw [List.getElem?_enum, hi]
      rfl
  · rw [hF, List.length_map]
    simp [CountIf, CountIf_loop_eq, List.enum]

/-! ## `Transform`, `Reduce`, `TransformReduce` and `Sum` -/

theorem Transform_loop_eq {T U : Type} (predicate : Nat → T → U) :
    ∀ (l : List T) (k : Nat) (result : List U),
      Transform.loop predicate k l result =
        result ++ (l.enumFrom k).map (fun p => predicate p.1 p.2)
  | [], _, result => by simp [Transform.loop]
  | a :: l, k, result => by
    unfold Transform.loop
    rw [Transform_loop_eq predicate l (k + 1), List.enumFrom_cons]
    simp

theorem Reduce_loop_map {T U : Type} (reduce : Nat → U → U → U) (transform : Nat → T → U) :
    ∀ (l : List T) (k : Nat) (result : U),
      Reduce.loop reduce k ((l.enumFrom k).map (fun p => transform p.1 p.2)) result =
        TransformReduce.loop reduce transform k l result
  | [], _, _ => rfl
  | a :: l, k, result => by
    rw [List.enumFrom_cons, List.map_cons]
    unfold Reduce.loop TransformReduce.loop
    exact Reduce_loop_map reduce transform l (k + 1) _

theorem TransformReduce_loop_eq_foldl {T U : Type} (reduce : Nat → U → U → U)
    (transform : Nat → T → U) :
    ∀ (l : List T) (k : Nat) (result : U),
      TransformReduce.loop reduce transform k l result =
        (l.enumFrom k).foldl (fun acc p => reduce p.1 acc (transform p.1 p.2)) result
  | [], _, _ => rfl
  | a :: l, k, result => by
    rw [List.enumFrom_cons, List.foldl_cons]
    unfold TransformReduce.loop
    exact TransformReduce_loop_eq_foldl reduce transform l (k + 1) _

theorem Sum_loop_eq_Reduce_loop {T : Type} [Add T] :
    ∀ (l : List T) (k : Nat) (result : T),
      Sum.loop l result = Reduce.loop (fun _ acc v => acc + v) k l result
  | [], _, _ => rfl
  | a :: l, k, result => by
    unfold Sum.loop Reduce.loop
    exact Sum_loop_eq_Reduce_loop l (k + 1) _

/-- C9. For every sequence, initial value, reduce function and transform function,
`TransformReduce(seq, init, reduceFn, transformFn)` equals
`Reduce(Transform(seq, transformFn), init, reduceFn)`; both functions receive the index of
the position they work on, so the result is the left fold of
`reduceFn(i, acc, transformFn(i, seq[i]))` over the indexed sequence. The tests:
`["123","456","789"]` with string-to-int and addition from 0 gives 1368, and the squares
of 1..10 add up to 385. -/
theorem TransformReduce_eq_Reduce_Transform {T U : Type} (seq : List T) (init : U)
    (reduceFn : Nat → U → U → U) (transformFn : Nat → T → U) :
    TransformReduce seq init reduceFn transformFn =
      Reduce (Transform seq transformFn) init reduceFn ∧
    TransformReduce seq init reduceFn transformFn =
      seq.enum.foldl (fun acc p => reduceFn p.1 acc (transformFn p.1 p.2)) init ∧
    TransformReduce ["123", "456", "789"] (0 : Int) (fun _ x y => wrapInt (x + y))
      (fun _ i => atoiDigits i) = 1368 ∧
    TransformReduce [1, 2, 3, 4, 5, 6, 7, 8, 9, 10] (0 : Int) (fun _ x y => wrapInt (x + y))
      (fun _ x => wrapInt (x * x)) = 385 := by
  have h1 : TransformReduce seq init reduceFn transformFn =
      Reduce (Transform seq transformFn) init reduceFn := by
    unfold TransformReduce Reduce Transform
    rw [Transform_loop_eq, List.nil_append, Reduce_loop_map]
  exact ⟨h1, TransformReduce_loop_eq_foldl reduceFn transformFn seq 0 init, by decide,
    by decide⟩

/-- C10. For every sequence over a type with `+` (Go `int`, where `+` wraps, and Go
`string`, where `+` concatenates, among them) and every `init`, `Sum(seq, init)` equals the
left fold `Reduce(seq, init, fun(_, acc, v) => acc + v)`: `Sum([], init) == init`, and
`init` is the leftmost operand. The tests: `Sum([1,2,3,4,5], 0) == 15` and
`Sum(["56","7","89"], "01234") == "0123456789"`. -/
theorem Sum_eq_Reduce_add {T : Type} [Add T] (seq : List T) (init : T) :
    Sum seq init = Reduce seq init (fun _ acc v => acc + v) ∧
    Sum seq init = seq.foldl (fun acc v => acc + v) init ∧
    Sum ([] : List T) init = init ∧
    Sum [GoInt.mk 1, GoInt.mk 2, GoInt.mk 3, GoInt.mk 4, GoInt.mk 5] (GoInt.mk 0) =
      GoInt.mk 15 ∧
    Sum [GoString.mk "56", GoString.mk "7", GoString.mk "89"] (GoString.mk "01234") =
      GoString.mk "0123456789" ∧
    Sum [GoString.mk "abc", GoString.mk "def", GoString.mk "ghi"] (GoString.mk "") =
      GoString.mk "abcdefghi" := by
  refine ⟨Sum_loop_eq_Reduce_loop seq 0 init, ?_, rfl, by decide, by decide, by decide⟩
  unfold Sum
  induction seq generalizing init with
  | nil => rfl
  | cons a l ih =>
    unfold Sum.loop
    exact ih (init + a)

/-! ## Controlled iteration: `Foreach` and `Zip` -/

theorem Foreach_loop_step {T σ : Type} (predicate : Nat → T → σ → ForeachAction × σ)
    (index : Nat) (element : T) (rest : List T) (s : σ) :
    Foreach.loop predicate index (element :: rest) s =
      if ValidAction (predicate index element s).1 then
        Foreach.loop predicate (index + 1) rest (predicate index element s).2
      else (false, (predicate index element s).2) := by
  rw [Foreach.loop]
  unfold ValidAction
  by_cases h0 : (predicate index element s).1 = ForeachNoOp
  · simp [h0]
  · by_cases h1 : (predicate index element s).1 = ForeachBreak
    · simp [h1]
    · by_cases h2 : (predicate index element s).1 = ForeachContinue
      · simp [h2]
      · simp [h0, h1, h2]

theorem Foreach_loop_valid {T σ : Type} (predicate : Nat → T → σ → ForeachAction × σ)
    (h : ∀ i x st, ValidAction (predicate i x st).1) :
    ∀ (l : List T) (k : Nat) (s : σ),
      Foreach.loop predicate k l s = (true, visitedState predicate (l.enumFrom k) s)
  | [], _, _ => rfl
  | a :: l, k, s => by
    rw [Foreach_loop_step, if_pos (h k a s), Foreach_loop_valid predicate h l (k + 1)]
    rfl

theorem Foreach_loop_false_iff {T σ : Type} (predicate : Nat → T → σ → ForeachAction × σ) :
    ∀ (l : List T) (k : Nat) (s : σ),
      (Foreach.loop predicate k l s).1 = false ↔
        ∃ i x, l[i]? = some x ∧
          ¬ ValidAction
            (predicate (k + i) x (visitedState predicate ((l.enumFrom k).take i) s)).1
  | [], _, _ => by simp [Foreach.loop]
  | a :: l, k, s => by
    rw [Foreach_loop_step]
    by_cases hv : ValidAction (predicate k a s).1
    · rw [if_pos hv, Foreach_loop_false_iff predicate l (k + 1)]
      constructor
      · rintro ⟨i, x, hx, hnv⟩
        refine ⟨i + 1, x, by rw [List.getElem?_cons_succ]; exact hx, ?_⟩
        rw [List.enumFrom_cons, List.take_succ_cons]
        rw [Nat.add_assoc, Nat.add_comm 1 i] at hnv
        exact hnv
      · rintro ⟨i, x, hx, hnv⟩
        cases i with
        | zero =>
          simp only [List.getElem?_cons_zero, Option.some.injEq] at hx
          subst hx
          exact absurd hv hnv
        | succ i =>
          rw [List.getElem?_cons_succ] at hx
          refine ⟨i, x, hx, ?_⟩
          rw [List.enumFrom_cons, List.take_succ_cons] at hnv
          rw [Nat.add_assoc, Nat.add_comm 1 i]
          exact hnv
    · rw [if_neg hv]
      constructor
      · intro _
        exact ⟨0, a, by simp, hv⟩
      · intro _
        rfl

theorem Min_eq_min {T : Type} [LinearOrder T] (x y : T) : Min x y = min x y := by
  unfold Min
  by_cases h : x < y
  · rw [if_pos h, min_eq_left (le_of_lt h)]
  · rw [if_neg h, min_eq_right (not_lt.1 h)]

theorem Zip_loop_eq {T U σ : Type} (predicate : Nat → T → U → σ → ForeachAction × σ) :
    ∀ (l1 : List T) (l2 : List U) (pre1 : List T) (pre2 : List U) (s : σ),
      pre1.length = pre2.length →
      Zip.loop (pre1 ++ l1) (pre2 ++ l2) predicate
          (List.range' pre1.length (min l1.length l2.length)) s =
        some (Foreach.loop (zipVisitor predicate) pre1.length (l1.zip l2) s)
  | [], _, _, _, _, _ => by simp [Zip.loop, Foreach.loop]
  | _ :: _, [], _, _, _, _ => by simp [Zip.loop, Foreach.loop]
  | a :: l1, b :: l2, pre1, pre2, s, hlen => by
    have h1 : (pre1 ++ a :: l1)[pre1.length]? = some a := by
      rw [List.getElem?_append_right (Nat.le_refl _)]
      simp
    have h2 : (pre2 ++ b :: l2)[pre1.length]? = some b := by
      rw [hlen, List.getElem?_append_right (Nat.le_refl _)]
      simp
    have ih := Zip_loop_eq predicate l1 l2 (pre1 ++ [a]) (pre2 ++ [b])
    simp only [List.length_append, List.length_singleton, List.append_assoc,
      List.singleton_append] at ih
    rw [List.length_cons, List.length_cons, Nat.succ_min_succ, List.range'_succ, Zip.loop,
      h1, h2, List.zip_cons_cons, Foreach.loop]
    simp only [zipVisitor]
    split
    · exact ih _ (by omega)
    · split
      · exact ih _ (by omega)
      · split
        · exact ih _ (by omega)
        · rfl

/-- `Zip` never fails on an index, and is `Foreach` over the positions both slices have. -/
theorem Zip_eq_Foreach_zip {T U σ : Type} (arr1 : List T) (arr2 : List U)
    (predicate : Nat → T → U → σ → ForeachAction × σ) (s : σ) :
    Zip arr1 arr2 predicate s = some (Foreach (arr1.zip arr2) (zipVisitor predicate) s) := by
  unfold Zip Foreach
  simp only [Min_eq_min, List.range_eq_range']
  exact Zip_loop_eq predicate arr1 arr2 [] [] s rfl

theorem Foreach_false_iff {T σ : Type} (arr : List T)
    (predicate : Nat → T → σ → ForeachAction × σ) (s : σ) :
    (Foreach arr predicate s).1 = false ↔
      ∃ i x, arr[i]? = some x ∧
        ¬ ValidAction (predicate i x (visitedState predicate (arr.enum.take i) s)).1 := by
  have h := Foreach_loop_false_iff predicate arr 0 s
  simp only [Nat.zero_add] at h
  exact h

theorem Zip_false_iff {T U σ : Type} (arr1 : List T) (arr2 : List U)
    (predicate : Nat → T → U → σ → ForeachAction × σ) (s : σ) :
    ∃ r, Zip arr1 arr2 predicate s = some r ∧
      (r.1 = false ↔
        ∃ i x y, i < Min arr1.length arr2.length ∧ arr1[i]? = some x ∧ arr2[i]? = some y ∧
          ¬ ValidAction (predicate i x y
            (visitedState (zipVisitor predicate) ((arr1.zip arr2).enum.take i) s)).1) := by
  refine ⟨_, Zip_eq_Foreach_zip arr1 arr2 predicate s, ?_⟩
  rw [Foreach_false_iff]
  constructor
  · rintro ⟨i, ⟨x, y⟩, hxy, hnv⟩
    obtain ⟨hx, hy⟩ := List.getElem?_zip_eq_some.1 hxy
    have hi1 := (List.getElem?_eq_some.1 hx).1
    have hi2 := (List.getElem?_eq_some.1 hy).1
    exact ⟨i, x, y, by rw [Min_eq_min]; exact lt_min hi1 hi2, hx, hy, hnv⟩
  · rintro ⟨i, x, y, -, hx, hy, hnv⟩
    exact ⟨i, (x, y), List.getElem?_zip_eq_some.2 ⟨hx, hy⟩, hnv⟩

/-- C4. `Foreach(seq, visitor)` returns false if and only if, for some index `i` of `seq`,
the call `visitor(i, seq[i])` returns a value other than `ForeachNoOp`, `ForeachBreak` and
`ForeachContinue`; `Zip(a, b, visitor)` returns false if and only if that happens for some
index `i < min(len(a), len(b))`. The call at index `i` is made in the state the visitor has
after its calls at the indices before `i`; for a visitor whose answer depends on its
arguments only, this is the plain statement about `visitor(i, seq[i])`. In particular a
visitor that returns only declared actions, `ForeachBreak` included, always yields true. -/
theorem Foreach_Zip_false_iff_undeclared_action {T U σ τ : Type} (seq : List T)
    (visitor : Nat → T → σ → ForeachAction × σ) (s : σ) (a : List T) (b : List U)
    (visitor2 : Nat → T → U → τ → ForeachAction × τ) (s2 : τ) :
    ((Foreach seq visitor s).1 = false ↔
      ∃ i x, seq[i]? = some x ∧
        ¬ ValidAction (visitor i x (visitedState visitor (seq.enum.take i) s)).1) ∧
    (∃ r, Zip a b visitor2 s2 = some r ∧
      (r.1 = false ↔
        ∃ i x y, i < Min a.length b.length ∧ a[i]? = some x ∧ b[i]? = some y ∧
          ¬ ValidAction (visitor2 i x y
            (visitedState (zipVisitor visitor2) ((a.zip b).enum.take i) s2)).1)) ∧
    (∀ f : Nat → T → ForeachAction,
      (Foreach seq (fun i x (st : σ) => (f i x, st)) s).1 = false ↔
        ∃ i x, seq[i]? = some x ∧ ¬ ValidAction (f i x)) ∧
    (∀ g : Nat → T → U → ForeachAction,
      ∃ r, Zip a b (fun i x y (st : τ) => (g i x y, st)) s2 = some r ∧
        (r.1 = false ↔
          ∃ i x y, i < Min a.length b.length ∧ a[i]? = some x ∧ b[i]? = some y ∧
            ¬ ValidAction (g i x y))) ∧
    ((∀ i x st, ValidAction (visitor i x st).1) → (Foreach seq visitor s).1 = true) ∧
    ((∀ i x y st, ValidAction (visitor2 i x y st).1) →
      ∃ st, Zip a b visitor2 s2 = some (true, st)) := by
  refine ⟨Foreach_false_iff seq visitor s, Zip_false_iff a b visitor2 s2, ?_, ?_, ?_, ?_⟩
  · intro f
    exact Foreach_false_iff seq (fun i x (st : σ) => (f i x, st)) s
  · intro g
    exact Zip_false_iff a b (fun i x y (st : τ) => (g i x y, st)) s2
  · intro h
    unfold Foreach
    rw [Foreach_loop_valid visitor h]
  · intro h
    refine ⟨visitedState (zipVisitor visitor2) (a.zip b).enum s2, ?_⟩
    rw [Zip_eq_Foreach_zip]
    unfold Foreach
    rw [Foreach_loop_valid (zipVisitor visitor2) (fun i p st => h i p.1 p.2 st)]
    rfl

/-- C5. For every sequence and every visitor that returns only `ForeachNoOp`,
`ForeachBreak` or `ForeachContinue`, `Foreach(seq, visitor)` returns true after invoking the
visitor exactly once for every element, in ascending index order, with `(i, seq[i])`: the
visitor ends in the state that these `len(seq)` calls, made in this order, leave it in. A
`ForeachBreak` returned at any position does not stop the later elements from being
visited. -/
theorem Foreach_visits_every_element {T σ : Type} (seq : List T)
    (visitor : Nat → T → σ → ForeachAction × σ) (s : σ)
    (h : ∀ i x st, ValidAction (visitor i x st).1) :
    Foreach seq visitor s = (true, visitedState visitor seq.enum s) ∧
    seq.enum.length = seq.length ∧
    ∀ i : Nat, seq.enum[i]? = seq[i]?.map (fun x => (i, x)) :=
  ⟨Foreach_loop_valid visitor h seq 0 s, List.enum_length, fun i => List.getElem?_enum seq i⟩

/-- C5, at the input of `TestForeach`: visiting `[0..10]` with the visitor that appends
`x*x` returns true and collects `[0,1,4,...,100]`; and a visitor that returns
`ForeachBreak` at every element still sees all of `[1,2,3]`. -/
theorem Foreach_visits_every_element_test :
    Foreach foreachTestInput squareCollector [] =
      (true, [0, 1, 4, 9, 16, 25, 36, 49, 64, 81, 100]) ∧
    Foreach [1, 2, 3] breakingCollector [] = (true, [1, 2, 3]) :=
  ⟨(Foreach_visits_every_element foreachTestInput squareCollector []
      (fun _ _ _ => Or.inl rfl)).1.trans (by decide),
    (Foreach_visits_every_element [1, 2, 3] breakingCollector []
      (fun _ _ _ => Or.inr (Or.inl rfl))).1.trans (by decide)⟩

/-- C6, refuted as stated: on two slices of length 2 a visitor that returns the undeclared
action `3` is invoked once, not `min(2, 2) = 2` times: `Zip` returns false after the call
at index 0 and never visits index 1. -/
theorem Zip_stops_at_undeclared_action :
    Zip [0, 0] [0, 0] countingInvalidVisitor 0 = some (false, 1) ∧
    Min ([0, 0] : List Int).length ([0, 0] : List Int).length = 2 ∧
    visitedState (zipVisitor countingInvalidVisitor) (([0, 0] : List Int).zip [0, 0]).enum 0
      = 2 ∧
    ¬ ∃ ok, Zip [0, 0] [0, 0] countingInvalidVisitor 0 =
      some (ok, visitedState (zipVisitor countingInvalidVisitor)
        (([0, 0] : List Int).zip [0, 0]).enum 0) := by
  refine ⟨by decide, by decide, by decide, ?_⟩
  rintro ⟨ok, h⟩
  have h1 : Zip [0, 0] [0, 0] countingInvalidVisitor 0 = some (false, 1) := by decide
  rw [h1] at h
  have h2 : visitedState (zipVisitor countingInvalidVisitor)
      (([0, 0] : List Int).zip [0, 0]).enum 0 = 2 := by decide
  rw [h2] at h
  simp at h

/-- C6, amended. For every pair of sequences `A` and `B` and every visitor that returns
only `ForeachNoOp`, `ForeachBreak` or `ForeachContinue`, `Zip(A, B, visitor)` never indexes
out of range, returns true, and invokes the visitor exactly `min(len(A), len(B))` times:
once for each index `i = 0 .. min-1` in ascending order with `(i, A[i], B[i])`, and never
for a position of the longer sequence at or beyond `min`. -/
theorem Zip_visits_min_positions {T U σ : Type} (A : List T) (B : List U)
    (visitor : Nat → T → U → σ → ForeachAction × σ) (s : σ)
    (h : ∀ i x y st, ValidAction (visitor i x y st).1) :
    Zip A B visitor s = some (true, visitedState (zipVisitor visitor) (A.zip B).enum s) ∧
    (A.zip B).enum.length = Min A.length B.length ∧
    (∀ i, i < Min A.length B.length →
      ∃ x y, A[i]? = some x ∧ B[i]? = some y ∧ (A.zip B).enum[i]? = some (i, (x, y))) := by
  refine ⟨?_, ?_, ?_⟩
  · rw [Zip_eq_Foreach_zip]
    unfold Foreach
    rw [Foreach_loop_valid (zipVisitor visitor) (fun i p st => h i p.1 p.2 st)]
    rfl
  · rw [List.enum_length, List.length_zip, Min_eq_min]
  · intro i hi
    rw [Min_eq_min] at hi
    have hA : i < A.length := lt_of_lt_of_le hi (min_le_left _ _)
    have hB : i < B.length := lt_of_lt_of_le hi (min_le_right _ _)
    refine ⟨A[i], B[i], List.getElem?_eq_getElem hA, List.getElem?_eq_getElem hB, ?_⟩
    rw [List.getElem?_enum]
    have hz : (A.zip B)[i]? = some (A[i], B[i]) :=
      List.getElem?_zip_eq_some.2 ⟨List.getElem?_eq_getElem hA, List.getElem?_eq_getElem hB⟩
    rw [hz]
    rfl

/-- C6 amended, at the input of `TestZip`: zipping `[0,1,2,3,4,5]` with `[1,1,4,9,16,25]`
and collecting `y` where `x*x == y` returns true and gives `[1,4,9,16,25]`; with a longer
second slice the extra tail is not visited. -/
theorem Zip_visits_min_positions_test :
    Zip [0, 1, 2, 3, 4, 5] [1, 1, 4, 9, 16, 25] squareMatcher [] =
      some (true, [1, 4, 9, 16, 25]) ∧
    Zip [0, 1, 2] [1, 1, 4, 9, 16, 25] squareMatcher [] = some (true, [1, 4]) :=
  ⟨(Zip_visits_min_positions [0, 1, 2, 3, 4, 5] [1, 1, 4, 9, 16, 25] squareMatcher []
      (fun _ _ _ _ => Or.inl rfl)).1.trans (by decide),
    (Zip_visits_min_positions [0, 1, 2] [1, 1, 4, 9, 16, 25] squareMatcher []
      (fun _ _ _ _ => Or.inl rfl)).1.trans (by decide)⟩

/-! ## Predicate combinators: `All`, `Any`, `AllSatisfy`, `AnySatisfy` -/

theorem All_loop_iff {T : Type} (predicate : Nat → T → Bool) :
    ∀ (l : List T) (k : Nat),
      All.loop predicate k l = true ↔ ∀ i x, l[i]? = some x → predicate (k + i) x = true
  | [], _ => by simp [All.loop]
  | a :: l, k => by
    unfold All.loop
    by_cases h : predicate k a = true
    · simp only [h, Bool.not_true, Bool.false_eq_true, if_false]
      rw [All_loop_iff predicate l (k + 1)]
      constructor
      · intro hall i x hi
        cases i with
        | zero =>
          simp only [List.getElem?_cons_zero, Option.some.injEq] at hi
          subst hi
          exact h
        | succ i =>
          rw [List.getElem?_cons_succ] at hi
          have := hall i x hi
          rwa [Nat.add_assoc, Nat.add_comm 1 i] at this
      · intro hall i x hi
        have := hall (i + 1) x (by rw [List.getElem?_cons_succ]; exact hi)
        rwa [Nat.add_assoc, Nat.add_comm 1 i]
    · have hf : predicate k a = false := by simpa using h
      simp only [hf, Bool.not_false, if_true, Bool.false_eq_true, false_iff]
      intro hall
      have := hall 0 a (by simp)
      rw [Nat.add_zero, hf] at this
      exact Bool.false_ne_true this

theorem Any_iff {T : Type} (predicate : T → Bool) :
    ∀ (l : List T),
      Any l predicate = true ↔ ∃ (i : Nat) (x : T), l[i]? = some x ∧ predicate x = true
  | [] => by simp [Any]
  | a :: l => by
    unfold Any
    by_cases h : predicate a = true
    · simp only [h, if_true, true_iff]
      exact ⟨0, a, by simp, h⟩
    · rw [if_neg h, Any_iff predicate l]
      constructor
      · rintro ⟨i, x, hi, hx⟩
        exact ⟨i + 1, x, by rw [List.getElem?_cons_succ]; exact hi, hx⟩
      · rintro ⟨i, x, hi, hx⟩
        cases i with
        | zero =>
          simp only [List.getElem?_cons_zero, Option.some.injEq] at hi
          subst hi
          exact absurd hx h
        | succ i =>
          rw [List.getElem?_cons_succ] at hi
          exact ⟨i, x, hi, hx⟩

theorem AllSatisfy_inner_eq {T U : Type} (predicate : Nat → Nat → T → U → Bool) (index1 : Nat)
    (element1 : T) :
    ∀ (l : List U) (k : Nat),
      AllSatisfy.inner predicate index1 element1 k l =
        All.loop (fun index2 element2 => predicate index1 index2 element1 element2) k l
  | [], _ => rfl
  | b :: l, k => by
    unfold AllSatisfy.inner All.loop
    rw [AllSatisfy_inner_eq predicate index1 element1 l (k + 1)]

theorem AllSatisfy_loop_eq {T U : Type} (arr2 : List U)
    (predicate : Nat → Nat → T → U → Bool) :
    ∀ (l : List T) (k : Nat),
      AllSatisfy.loop arr2 predicate k l =
        All.loop (fun index1 element1 =>
          All.loop (fun index2 element2 => predicate index1 index2 element1 element2) 0 arr2)
          k l
  | [], _ => rfl
  | a :: l, k => by
    unfold AllSatisfy.loop All.loop
    rw [AllSatisfy_loop_eq arr2 predicate l (k + 1), AllSatisfy_inner_eq]
    cases All.loop (fun index2 element2 => predicate k index2 a element2) 0 arr2 <;> simp

theorem AllSatisfy_iff {T U : Type} (arr1 : List T) (arr2 : List U)
    (predicate : Nat → Nat → T → U → Bool) :
    AllSatisfy arr1 arr2 predicate = true ↔
      ∀ i j x y, arr1[i]? = some x → arr2[j]? = some y → predicate i j x y = true := by
  unfold AllSatisfy
  rw [AllSatisfy_loop_eq, All_loop_iff]
  simp only [Nat.zero_add, All_loop_iff]
  constructor
  · intro h i j x y hx hy
    exact h i x hx j y hy
  · intro h i x hx j y hy
    exact h i j x y hx hy

theorem AnySatisfy_inner_iff {T U : Type} (predicate : Nat → Nat → T → U → Bool)
    (index1 : Nat) (element1 : T) :
    ∀ (l : List U) (k : Nat),
      AnySatisfy.inner predicate index1 element1 k l = true ↔
        ∃ j y, l[j]? = some y ∧ predicate index1 (k + j) element1 y = true
  | [], _ => by simp [AnySatisfy.inner]
  | b :: l, k => by
    unfold AnySatisfy.inner
    by_cases h : predicate index1 k element1 b = true
    · simp only [h, if_true, true_iff]
      exact ⟨0, b, by simp, h⟩
    · rw [if_neg h, AnySatisfy_inner_iff predicate index1 element1 l (k + 1)]
      constructor
      · rintro ⟨j, y, hj, hy⟩
        refine ⟨j + 1, y, by rw [List.getElem?_cons_succ]; exact hj, ?_⟩
        rwa [Nat.add_assoc, Nat.add_comm 1 j] at hy
      · rintro ⟨j, y, hj, hy⟩
        cases j with
        | zero =>
          simp only [List.getElem?_cons_zero, Option.some.injEq] at hj
          subst hj
          exact absurd hy h
        | succ j =>
          rw [List.getElem?_cons_succ] at hj
          refine ⟨j, y, hj, ?_⟩
          rwa [Nat.add_assoc, Nat.add_comm 1 j]

theorem AnySatisfy_loop_iff {T U : Type} (arr2 : List U)
    (predicate : Nat → Nat → T → U → Bool) :
    ∀ (l : List T) (k : Nat),
      AnySatisfy.loop arr2 predicate k l = true ↔
        ∃ i j x y, l[i]? = some x ∧ arr2[j]? = some y ∧ predicate (k + i) j x y = true
  | [], _ => by simp [AnySatisfy.loop]
  | a :: l, k => by
    unfold AnySatisfy.loop
    by_cases h : AnySatisfy.inner predicate k a 0 arr2 = true
    · simp only [h, if_true, true_iff]
      obtain ⟨j, y, hj, hy⟩ := (AnySatisfy_inner_iff predicate k a arr2 0).1 h
      rw [Nat.zero_add] at hy
      exact ⟨0, j, a, y, by simp, hj, hy⟩
    · rw [if_neg h, AnySatisfy_loop_iff arr2 predicate l (k + 1)]
      constructor
      · rintro ⟨i, j, x, y, hi, hj, hp⟩
        refine ⟨i + 1, j, x, y, by rw [List.getElem?_cons_succ]; exact hi, hj, ?_⟩
        rwa [Nat.add_assoc, Nat.add_comm 1 i] at hp
      · rintro ⟨i, j, x, y, hi, hj, hp⟩
        cases i with
        | zero =>
          simp only [List.getElem?_cons_zero, Option.some.injEq] at hi
          subst hi
          exfalso
          apply h
          rw [AnySatisfy_inner_iff]
          exact ⟨j, y, hj, by rw [Nat.zero_add]; exact hp⟩
        | succ i =>
          rw [List.getElem?_cons_succ] at hi
          refine ⟨i, j, x, y, hi, hj, ?_⟩
          rwa [Nat.add_assoc, Nat.add_comm 1 i]

/-- C11. For every two sequences `A` and `B` and every predicate, `AllSatisfy(A, B, pred)`
is true if and only if `pred(i, j, A[i], B[j])` holds for every pair `(i, j)` of the full
Cartesian product of the index ranges (not only for `i == j`), hence it is true when either
sequence is empty; `AnySatisfy(A, B, pred)` is true if and only if `pred` holds for at
least one such pair, hence it is false when either sequence is empty. -/
theorem AllSatisfy_AnySatisfy_cartesian {T U : Type} (A : List T) (B : List U)
    (pred : Nat → Nat → T → U → Bool) :
    (AllSatisfy A B pred = true ↔
      ∀ i j x y, A[i]? = some x → B[j]? = some y → pred i j x y = true) ∧
    (AnySatisfy A B pred = true ↔
      ∃ i j x y, A[i]? = some x ∧ B[j]? = some y ∧ pred i j x y = true) ∧
    AllSatisfy ([] : List T) B pred = true ∧ AllSatisfy A ([] : List U) pred = true ∧
    AnySatisfy ([] : List T) B pred = false ∧ AnySatisfy A ([] : List U) pred = false ∧
    AllSatisfy [1] [2, 3] (fun _ _ (_ : Int) (_ : Int) => true) = true ∧
    AllSatisfy [1, 2] [1, 2] (fun i j (_ : Int) (_ : Int) => decide (i = j)) = false ∧
    AllSatisfy [1, 2] [1, 2] (fun _ _ (x : Int) (y : Int) => decide (x * y < 4)) = false := by
  have hany : AnySatisfy A B pred = true ↔
      ∃ i j x y, A[i]? = some x ∧ B[j]? = some y ∧ pred i j x y = true := by
    have h := AnySatisfy_loop_iff B pred A 0
    simp only [Nat.zero_add] at h
    exact h
  have hany2 : ∀ (A2 : List T) (B2 : List U), (A2 = [] ∨ B2 = []) →
      AnySatisfy A2 B2 pred = false := by
    intro A2 B2 hemp
    cases hb : AnySatisfy A2 B2 pred with
    | false => rfl
    | true =>
      have h := AnySatisfy_loop_iff B2 pred A2 0
      obtain ⟨i, j, x, y, hi, hj, -⟩ := h.1 hb
      rcases hemp with rfl | rfl
      · simp at hi
      · simp at hj
  refine ⟨AllSatisfy_iff A B pred, hany, ?_, ?_, hany2 [] B (Or.inl rfl),
    hany2 A [] (Or.inr rfl), by decide, by decide, by decide⟩
  · rfl
  · rw [AllSatisfy_iff]
    intro i j x y _ hy
    simp at hy

/-- C12. For every sequence, `All(seq, pred)` is true if and only if `pred(i, seq[i])`
holds for every index `i`, so `All([], pred)` is true; `Any(seq, pred)` is true if and only
if `pred(seq[i])` holds for at least one index `i`, so `Any([], pred)` is false. -/
theorem All_every_Any_some {T : Type} (seq : List T) (pred : Nat → T → Bool)
    (pred1 : T → Bool) :
    (All seq pred = true ↔ ∀ i x, seq[i]? = some x → pred i x = true) ∧
    All ([] : List T) pred = true ∧
    (Any seq pred1 = true ↔ ∃ (i : Nat) (x : T), seq[i]? = some x ∧ pred1 x = true) ∧
    Any ([] : List T) pred1 = false ∧
    All [2, 4, 6, 8, 10] (fun _ (n : Int) => decide (n % 2 = 0)) = true ∧
    All [2, 3, 5, 7, 9] (fun _ (n : Int) => decide (n % 2 = 0)) = false ∧
    Any [2, 4, -5, 2, 1] (fun (n : Int) => decide (n < 0)) = true := by
  have h := All_loop_iff pred seq 0
  simp only [Nat.zero_add] at h
  exact ⟨h, rfl, Any_iff pred1 seq, rfl, by decide, by decide, by decide⟩

/-! ## Generation and repetition: `Generate` and `RepeatArray` -/

theorem Generate_loop_eq {T : Type} (predicate : Nat → T) :
    ∀ (suf pre : List T),
      Generate.loop predicate (List.range' pre.length suf.length) (pre ++ suf) =
        some (pre ++ (List.range' pre.length suf.length).map predicate)
  | [], pre => by simp [Generate.loop]
  | x :: suf, pre => by
    have hlt : pre.length < (pre ++ x :: suf).length := by
      rw [List.length_append, List.length_cons]
      omega
    have hset : (pre ++ x :: suf).set pre.length (predicate pre.length) =
        (pre ++ [predicate pre.length]) ++ suf := by
      simp [List.set_append]
    have ih := Generate_loop_eq predicate suf (pre ++ [predicate pre.length])
    rw [List.length_append, List.length_singleton] at ih
    rw [List.length_cons, List.range'_succ, Generate.loop, if_pos hlt, hset, ih]
    simp

theorem makeSlice_within_limit {T : Type} [Inhabited T] (maxLen : Nat) (n : Int)
    (h0 : 0 ≤ n) (h1 : n ≤ (maxLen : Int)) :
    makeSlice maxLen n = some (List.replicate n.toNat (default : T)) := by
  unfold makeSlice
  rw [if_neg (by omega), if_neg (by omega)]

theorem makeSlice_beyond_limit {T : Type} [Inhabited T] (maxLen : Nat) (n : Int)
    (h : (maxLen : Int) < n) : makeSlice maxLen n = (none : Option (List T)) := by
  unfold makeSlice
  by_cases h0 : n < 0
  · rw [if_pos h0]
  · rw [if_neg h0, if_pos h]

theorem Generate_of_make_panic {T : Type} [Inhabited T] (maxLen : Nat) (count : Int)
    (predicate : Nat → T) (h : makeSlice maxLen count = (none : Option (List T))) :
    Generate maxLen count predicate = none := by
  unfold Generate
  rw [h]

theorem RepeatArray_of_make_panic {T : Type} [Inhabited T] (maxLen : Nat) (count : Int)
    (elements : List T)
    (h : makeSlice maxLen (wrapInt ((elements.length : Int) * count)) =
      (none : Option (List T))) :
    RepeatArray maxLen count elements = none := by
  unfold RepeatArray
  simp only
  rw [h]

theorem Generate_eq_map {T : Type} [Inhabited T] (maxLen : Nat) (count : Int)
    (predicate : Nat → T) (h : 0 ≤ count) (hmax : count ≤ (maxLen : Int)) :
    Generate maxLen count predicate = some ((List.range count.toNat).map predicate) := by
  unfold Generate
  rw [makeSlice_within_limit maxLen count h hmax]
  simp only
  have h1 := Generate_loop_eq predicate (List.replicate count.toNat (default : T)) []
  simp only [List.length_nil, List.length_replicate, List.nil_append] at h1
  rw [List.range_eq_range']
  exact h1

theorem RepeatArray_loop_eq {T : Type} (elements : List T) (hpos : 0 < elements.length) :
    ∀ (suf pre : List T),
      RepeatArray.loop elements elements.length (List.range' pre.length suf.length)
          (pre ++ suf) =
        some (pre ++ (List.range' pre.length suf.length).filterMap
          (fun i => elements[i % elements.length]?))
  | [], pre => by simp [RepeatArray.loop]
  | x :: suf, pre => by
    have hmod : pre.length % elements.length < elements.length := Nat.mod_lt _ hpos
    have hget : elements[pre.length % elements.length]? =
        some (elements[pre.length % elements.length]) := List.getElem?_eq_getElem hmod
    have hlt : pre.length < (pre ++ x :: suf).length := by
      rw [List.length_append, List.length_cons]
      omega
    have hset : (pre ++ x :: suf).set pre.length (elements[pre.length % elements.length]) =
        (pre ++ [elements[pre.length % elements.length]]) ++ suf := by
      simp [List.set_append]
    have ih := RepeatArray_loop_eq elements hpos suf
      (pre ++ [elements[pre.length % elements.length]])
    rw [List.length_append, List.length_singleton] at ih
    rw [List.length_cons, List.range'_succ, RepeatArray.loop, if_neg (by omega), hget]
    simp only
    rw [if_pos hlt, hset, ih]
    simp [List.filterMap_cons, hget]

theorem filterMap_lookup_range {T : Type} (elements : List T) :
    (List.range elements.length).filterMap (fun j => elements[j]?) = elements := by
  rw [← List.enum_map_fst, List.filterMap_map]
  have h : List.filterMap ((fun j => elements[j]?) ∘ Prod.fst) elements.enum =
      List.filterMap (fun p => some p.2) elements.enum := by
    apply List.filterMap_congr
    rintro ⟨i, x⟩ hp
    exact List.mk_mem_enum_iff_getElem?.1 hp
  rw [h]
  have h2 : (fun p : Nat × T => some p.2) = some ∘ Prod.snd := rfl
  rw [h2, List.filterMap_eq_map, List.enum_map_snd]

theorem filterMap_mod_range {T : Type} (elements : List T) :
    ∀ (count : Nat),
      (List.range (count * elements.length)).filterMap
          (fun i => elements[i % elements.length]?) =
        (List.replicate count elements).flatten
  | 0 => by simp
  | count + 1 => by
    have hblock : (List.map (fun x => count * elements.length + x)
        (List.range elements.length)).filterMap (fun i => elements[i % elements.length]?) =
        elements := by
      rw [List.filterMap_map]
      have h1 : (List.filterMap ((fun i => elements[i % elements.length]?) ∘
          fun x => count * elements.length + x) (List.range elements.length)) =
          List.filterMap (fun j => elements[j]?) (List.range elements.length) := by
        apply List.filterMap_congr
        intro j hj
        have hj2 : j < elements.length := List.mem_range.1 hj
        simp only [Function.comp]
        rw [Nat.mul_comm, Nat.mul_add_mod, Nat.mod_eq_of_lt hj2]
      rw [h1, filterMap_lookup_range]
    rw [Nat.add_mul, Nat.one_mul, List.range_add, List.filterMap_append,
      filterMap_mod_range elements count, hblock, List.replicate_succ', List.flatten_append]
    simp

theorem flatten_replicate_lookup {T : Type} (elements : List T) :
    ∀ (count i : Nat), i < count * elements.length →
      ((List.replicate count elements).flatten)[i]? = elements[i % elements.length]?
  | 0, i, h => by simp at h
  | count + 1, i, h => by
    rw [List.replicate_succ, List.flatten_cons]
    by_cases hi : i < elements.length
    · rw [List.getElem?_append_left hi, Nat.mod_eq_of_lt hi]
    · have hle : elements.length ≤ i := Nat.le_of_not_lt hi
      rw [List.getElem?_append_right hle,
        flatten_replicate_lookup elements count (i - elements.length)
          (by rw [Nat.add_mul, Nat.one_mul] at h; omega),
        Nat.mod_eq_sub_mod hle]

theorem wrapInt_of_fits (z : Int) (h0 : 0 ≤ z) (h1 : z < 9223372036854775808) :
    wrapInt z = z := by
  unfold wrapInt
  omega

theorem RepeatArray_eq_flatten {T : Type} [Inhabited T] (maxLen : Nat) (count : Int)
    (elements : List T) (h0 : 0 ≤ count)
    (hfit : (elements.length : Int) * count ≤ (maxLen : Int))
    (hmax : (maxLen : Int) < 9223372036854775808) :
    RepeatArray maxLen count elements =
      some (List.replicate count.toNat elements).flatten := by
  have hprod : (elements.length : Int) * count =
      ((count.toNat * elements.length : Nat) : Int) := by
    rw [Nat.cast_mul, Int.toNat_of_nonneg h0, mul_comm]
  have hnn : 0 ≤ (elements.length : Int) * count := by
    rw [hprod]
    exact Int.ofNat_nonneg _
  unfold RepeatArray
  simp only
  rw [wrapInt_of_fits _ hnn (by omega), makeSlice_within_limit maxLen _ hnn hfit]
  simp only
  rw [hprod, Int.toNat_ofNat]
  by_cases hlen : elements.length = 0
  · have hnil : elements = [] := List.length_eq_zero.1 hlen
    subst hnil
    simp [RepeatArray.loop]
  · have hpos : 0 < elements.length := Nat.pos_of_ne_zero hlen
    have h1 := RepeatArray_loop_eq elements hpos
      (List.replicate (count.toNat * elements.length) (default : T)) []
    simp only [List.length_nil, List.length_replicate, List.nil_append] at h1
    rw [List.range_eq_range', h1, ← List.range_eq_range', filterMap_mod_range]

/-- C13, refuted as stated, for `int` elements on a 64-bit target. With `count = 2^62`
and the four-element slice `[1,2,3,4]` the `int` product `length*count` is `2^64`, which
wraps to `0`, so `RepeatArray` returns the empty slice and not a slice of length
`count * len(seq)`; with `count = 2^61 + 1` the product wraps to a negative number and
`make` panics; with `count = 2^60` and the one-element slice `[7]` the product is above
what `make` allocates, and `make` panics. -/
theorem RepeatArray_length_product_wraps :
    RepeatArray maxLenInt 4611686018427387904 ([1, 2, 3, 4] : List Int) = some [] ∧
    (4611686018427387904 : Int).toNat * ([1, 2, 3, 4] : List Int).length ≠
      ([] : List Int).length ∧
    RepeatArray maxLenInt 2305843009213693953 ([1, 2, 3, 4] : List Int) = none ∧
    (∀ maxLen : Nat, maxLen ≤ maxLenInt →
      RepeatArray maxLen 1152921504606846976 ([7] : List Int) = none) := by
  refine ⟨by decide, by decide, by decide, ?_⟩
  intro maxLen hle
  unfold maxLenInt at hle
  have hw : wrapInt ((([7] : List Int).length : Int) * 1152921504606846976) =
      1152921504606846976 := by decide
  apply RepeatArray_of_make_panic
  rw [hw]
  exact makeSlice_beyond_limit maxLen _ (by omega)

/-- C13, amended. Let `maxLen`, below `2^63`, be the largest length that `make` allocates
for the element type. For every `count >= 0` and every sequence `seq` with
`count * len(seq) <= maxLen`, the empty sequence included, where no index or remainder by
zero is ever evaluated: `RepeatArray(count, seq)` returns a result, it has length
`count * len(seq)` and is the concatenation of `count` copies of `seq` in order, that is
`result[i] == seq[i mod len(seq)]` for every `i`. -/
theorem RepeatArray_concatenates_copies {T : Type} [Inhabited T] (maxLen : Nat)
    (count : Int) (seq : List T) (h0 : 0 ≤ count)
    (hfit : (seq.length : Int) * count ≤ (maxLen : Int))
    (hmax : (maxLen : Int) < 9223372036854775808) :
    ∃ r, RepeatArray maxLen count seq = some r ∧
      r.length = count.toNat * seq.length ∧
      r = (List.replicate count.toNat seq).flatten ∧
      ∀ i, i < r.length → r[i]? = seq[i % seq.length]? := by
  have hlen : ((List.replicate count.toNat seq).flatten).length =
      count.toNat * seq.length := by
    simp [List.length_flatten]
  refine ⟨_, RepeatArray_eq_flatten maxLen count seq h0 hfit hmax, hlen, rfl, ?_⟩
  intro i hi
  rw [hlen] at hi
  exact flatten_replicate_lookup seq count.toNat i hi

/-- C13 amended, at the input of `TestRepeatArray`, `RepeatArray(4, [1,2,3])`, at the
example `RepeatArray(3, [1,2])`, and at an empty slice. -/
theorem RepeatArray_concatenates_copies_test :
    (∃ r, RepeatArray maxLenInt 4 ([1, 2, 3] : List Int) = some r ∧
      r.length = (4 : Int).toNat * ([1, 2, 3] : List Int).length ∧
      r = (List.replicate (4 : Int).toNat ([1, 2, 3] : List Int)).flatten ∧
      ∀ i, i < r.length → r[i]? = ([1, 2, 3] : List Int)[i % ([1, 2, 3] : List Int).length]?) ∧
    RepeatArray maxLenInt 4 ([1, 2, 3] : List Int) =
      some [1, 2, 3, 1, 2, 3, 1, 2, 3, 1, 2, 3] ∧
    RepeatArray maxLenInt 3 ([1, 2] : List Int) = some [1, 2, 1, 2, 1, 2] ∧
    RepeatArray maxLenInt 5 ([] : List Int) = some [] :=
  ⟨RepeatArray_concatenates_copies maxLenInt 4 [1, 2, 3] (by decide) (by decide) (by decide),
    by decide, by decide, by decide⟩

/-- C14, refuted as stated, for `int` elements on a 64-bit target: `count = 2^60` is not
negative, yet `make([]int, count)` panics, since the length is above what `make`
allocates, so `Generate` returns no sequence at all. -/
theorem Generate_beyond_allocation_limit :
    (0 : Int) ≤ 1152921504606846976 ∧
    (∀ maxLen : Nat, maxLen ≤ maxLenInt →
      Generate maxLen 1152921504606846976 (fun index => (index : Int)) = none) ∧
    ¬ ∃ r, Generate maxLenInt 1152921504606846976 (fun index => (index : Int)) = some r ∧
      (r.length : Int) = 1152921504606846976 := by
  have h : ∀ maxLen : Nat, maxLen ≤ maxLenInt →
      Generate maxLen 1152921504606846976 (fun index => (index : Int)) = none := by
    intro maxLen hle
    unfold maxLenInt at hle
    exact Generate_of_make_panic maxLen _ _ (makeSlice_beyond_limit maxLen _ (by omega))
  refine ⟨by decide, h, ?_⟩
  rintro ⟨r, hr, -⟩
  rw [h maxLenInt (Nat.le_refl _)] at hr
  exact Option.noConfusion hr

/-- C14, amended. Let `maxLen` be the largest length that `make` allocates for the element
type. For every `count` with `0 <= count <= maxLen` and every function `f`,
`Generate(count, f)` returns a sequence of length exactly `count` whose element at each
index `i` is `f(i)`. -/
theorem Generate_length_and_elements {T : Type} [Inhabited T] (maxLen : Nat) (count : Int)
    (f : Nat → T) (h : 0 ≤ count) (hmax : count ≤ (maxLen : Int)) :
    ∃ r, Generate maxLen count f = some r ∧ (r.length : Int) = count ∧
      ∀ i : Nat, (i : Int) < count → r[i]? = some (f i) := by
  refine ⟨_, Generate_eq_map maxLen count f h hmax, ?_, ?_⟩
  · rw [List.length_map, List.length_range]
    exact Int.toNat_of_nonneg h
  · intro i hi
    have hi2 : i < count.toNat := by omega
    rw [List.getElem?_map, List.getElem?_range hi2]
    rfl

/-- C14 amended, at the inputs of `TestGenerate`: `Generate(6, i => i*i) ==
[0,1,4,9,16,25]` and `Generate(10, i => i) == [0,...,9]`. -/
theorem Generate_length_and_elements_test :
    (∃ r, Generate maxLenInt 6 (fun index => wrapInt ((index : Int) * (index : Int))) =
        some r ∧
      (r.length : Int) = 6 ∧
      ∀ i : Nat, (i : Int) < 6 → r[i]? = some (wrapInt ((i : Int) * (i : Int)))) ∧
    Generate maxLenInt 6 (fun index => wrapInt ((index : Int) * (index : Int))) =
      some [0, 1, 4, 9, 16, 25] ∧
    Generate maxLenInt 10 (fun index => (index : Int)) =
      some [0, 1, 2, 3, 4, 5, 6, 7, 8, 9] :=
  ⟨Generate_length_and_elements maxLenInt 6
      (fun index => wrapInt ((index : Int) * (index : Int))) (by decide) (by decide),
    by decide, by decide⟩

/-! ## `Transform`, `Count` and `CountIf`, element by element -/

/-- C15. For every sequence and function `f`, `Transform(seq, f)` has the same length as
`seq` and its element at each index `i` is `f(i, seq[i])`. The test:
`Transform([1..10], (_, x) => x*x) == [1,4,9,16,25,36,49,64,81,100]`. -/
theorem Transform_length_and_elements {T U : Type} (seq : List T) (f : Nat → T → U) :
    (Transform seq f).length = seq.length ∧
    (∀ i : Nat, (Transform seq f)[i]? = (seq[i]?).map (f i)) ∧
    Transform seq f = seq.enum.map (fun p => f p.1 p.2) ∧
    Transform [1, 2, 3, 4, 5, 6, 7, 8, 9, 10] (fun _ (x : Int) => wrapInt (x * x)) =
      [1, 4, 9, 16, 25, 36, 49, 64, 81, 100] := by
  have h : Transform seq f = seq.enum.map (fun p => f p.1 p.2) := by
    unfold Transform
    rw [Transform_loop_eq, List.nil_append, List.enum]
  refine ⟨?_, ?_, h, by decide⟩
  · rw [h, List.length_map, List.enum_length]
  · intro i
    rw [h, List.getElem?_map, List.getElem?_enum]
    cases seq[i]? <;> rfl

theorem Count_loop_eq_CountIf_loop {T : Type} [DecidableEq T] (element : T) :
    ∀ (l : List T) (k result : Nat),
      Count.loop element l result =
        CountIf.loop (fun _ x => decide (x = element)) k l result
  | [], _, _ => rfl
  | a :: l, k, result => by
    unfold Count.loop CountIf.loop
    by_cases h : a = element
    · simp only [h, if_true, decide_True]
      exact Count_loop_eq_CountIf_loop element l (k + 1) (result + 1)
    · simp only [h, if_false, decide_False, Bool.false_eq_true]
      exact Count_loop_eq_CountIf_loop element l (k + 1) result

theorem Count_loop_eq_count {T : Type} [DecidableEq T] (element : T) :
    ∀ (l : List T) (result : Nat), Count.loop element l result = result + l.count element
  | [], _ => rfl
  | a :: l, result => by
    unfold Count.loop
    by_cases h : a = element
    · rw [if_pos h, Count_loop_eq_count element l, h, List.count_cons_self]
      omega
    · rw [if_neg h, Count_loop_eq_count element l, List.count_cons_of_ne (Ne.symm h)]

theorem Count_true_add_false :
    ∀ (bs : List Bool), Count bs true + Count bs false = bs.length
  | [] => rfl
  | b :: bs => by
    have ih := Count_true_add_false bs
    unfold Count at ih ⊢
    rw [Count_loop_eq_count, Count_loop_eq_count, Nat.zero_add, Nat.zero_add] at ih ⊢
    cases b
    · rw [List.count_cons_of_ne (by decide), List.count_cons_self, List.length_cons]
      omega
    · rw [List.count_cons_self, List.count_cons_of_ne (by decide), List.length_cons]
      omega

/-- C16. For every sequence, `CountIf(seq, pred)` is the number of indices `i` with
`pred(i, seq[i])` true over the whole sequence, and `Count(seq, e)` is the number of indices
`i` with `seq[i] == e`, that is `CountIf` with the equality predicate; hence for a sequence
of booleans `Count(seq, true) + Count(seq, false) == len(seq)`. The 15-element `arr1` of
`TestCount` has 7 true and 8 false values. -/
theorem CountIf_Count_number_of_matches {T : Type} [DecidableEq T] (seq : List T)
    (pred : Nat → T → Bool) (e : T) (bs : List Bool) :
    CountIf seq pred = (seq.enum.filter (fun p => pred p.1 p.2)).length ∧
    Count seq e = CountIf seq (fun _ x => decide (x = e)) ∧
    Count seq e = (seq.enum.filter (fun p => decide (p.2 = e))).length ∧
    Count seq e = seq.count e ∧
    Count bs true + Count bs false = bs.length ∧
    Count countTestInput true = 7 ∧ Count countTestInput false = 8 ∧
    CountIf [1, -2, 3, -4, -5, 6, 7, 8, 9, 10] (fun _ (n : Int) => decide (n < 0)) = 3 := by
  have hc : ∀ (q : Nat → T → Bool),
      CountIf seq q = (seq.enum.filter (fun p => q p.1 p.2)).length := by
    intro q
    simp [CountIf, CountIf_loop_eq, List.enum]
  have hce : Count seq e = CountIf seq (fun _ x => decide (x = e)) :=
    Count_loop_eq_CountIf_loop e seq 0 0
  refine ⟨hc pred, hce, ?_, ?_, Count_true_add_false bs, by decide, by decide, by decide⟩
  · rw [hce, hc]
  · unfold Count
    rw [Count_loop_eq_count, Nat.zero_add]

/-! ## Maps: `MTransform` -/

theorem mapAssign_keys {K V : Type} [DecidableEq K] (key : K) (value : V) :
    ∀ (m : List (K × V)) (k2 : K),
      k2 ∈ (mapAssign m key value).map Prod.fst ↔ k2 ∈ m.map Prod.fst ∨ k2 = key
  | [], k2 => by simp [mapAssign]
  | (k, v) :: rest, k2 => by
    unfold mapAssign
    by_cases h : k = key
    · rw [if_pos h]
      subst h
      simp only [List.map_cons, List.mem_cons]
      tauto
    · rw [if_neg h]
      simp only [List.map_cons, List.mem_cons]
      rw [mapAssign_keys key value rest k2]
      tauto

theorem mapAssign_nodup {K V : Type} [DecidableEq K] (key : K) (value : V) :
    ∀ (m : List (K × V)), (m.map Prod.fst).Nodup →
      ((mapAssign m key value).map Prod.fst).Nodup
  | [], _ => by simp [mapAssign]
  | (k, v) :: rest, h => by
    unfold mapAssign
    rw [List.map_cons, List.nodup_cons] at h
    by_cases hk : k = key
    · rw [if_pos hk]
      subst hk
      rw [List.map_cons, List.nodup_cons]
      exact h
    · rw [if_neg hk, List.map_cons, List.nodup_cons]
      refine ⟨?_, mapAssign_nodup key value rest h.2⟩
      intro hmem
      rcases (mapAssign_keys key value rest k).1 hmem with h1 | h1
      · exact h.1 h1
      · exact hk h1

theorem mapAssign_entries {K V : Type} [DecidableEq K] (key : K) (value : V) :
    ∀ (m : List (K × V)) (p : K × V),
      p ∈ mapAssign m key value → p = (key, value) ∨ p ∈ m
  | [], p, h => by
    simp only [mapAssign, List.mem_singleton] at h
    exact Or.inl h
  | (k, v) :: rest, p, h => by
    unfold mapAssign at h
    by_cases hk : k = key
    · rw [if_pos hk, List.mem_cons] at h
      rcases h with h | h
      · exact Or.inl h
      · exact Or.inr (List.mem_cons_of_mem _ h)
    · rw [if_neg hk, List.mem_cons] at h
      rcases h with h | h
      · exact Or.inr (h ▸ List.mem_cons_self _ _)
      · rcases mapAssign_entries key value rest p h with h1 | h1
        · exact Or.inl h1
        · exact Or.inr (List.mem_cons_of_mem _ h1)

theorem mapAssign_length {K V : Type} [DecidableEq K] (key : K) (value : V) :
    ∀ (m : List (K × V)), (mapAssign m key value).length ≤ m.length + 1
  | [] => by simp [mapAssign]
  | (k, v) :: rest => by
    unfold mapAssign
    by_cases hk : k = key
    · rw [if_pos hk]
      simp
    · rw [if_neg hk, List.length_cons, List.length_cons]
      have := mapAssign_length key value rest
      omega

/-- What `MTransform` has built after the entries `seen`: a map with distinct keys, no
larger than `seen`, whose keys are the keys produced from `seen` and whose entries are
produced from `seen`. -/
theorem MTransform_loop_inv {TK TV UK UV : Type} [DecidableEq UK]
    (predicate : TK → TV → UK × UV) :
    ∀ (rest seen : List (TK × TV)) (result : List (UK × UV)),
      (result.map Prod.fst).Nodup → result.length ≤ seen.length →
      (∀ k2, k2 ∈ result.map Prod.fst ↔ ∃ e, e ∈ seen ∧ (predicate e.1 e.2).1 = k2) →
      (∀ p, p ∈ result → ∃ e, e ∈ seen ∧ predicate e.1 e.2 = p) →
      ((MTransform.loop predicate rest result).map Prod.fst).Nodup ∧
      (MTransform.loop predicate rest result).length ≤ (seen ++ rest).length ∧
      (∀ k2, k2 ∈ (MTransform.loop predicate rest result).map Prod.fst ↔
        ∃ e, e ∈ seen ++ rest ∧ (predicate e.1 e.2).1 = k2) ∧
      (∀ p, p ∈ MTransform.loop predicate rest result →
        ∃ e, e ∈ seen ++ rest ∧ predicate e.1 e.2 = p)
  | [], seen, result, h1, h2, h3, h4 => by
    simp only [MTransform.loop, List.append_nil]
    exact ⟨h1, h2, h3, h4⟩
  | (key, value) :: rest, seen, result, h1, h2, h3, h4 => by
    unfold MTransform.loop
    have ih := MTransform_loop_inv predicate rest (seen ++ [(key, value)])
      (mapAssign result (predicate key value).1 (predicate key value).2)
      (mapAssign_nodup _ _ result h1)
      (by
        have := mapAssign_length (predicate key value).1 (predicate key value).2 result
        rw [List.length_append, List.length_singleton]
        omega)
      (by
        intro k2
        rw [mapAssign_keys, h3]
        constructor
        · rintro (⟨e, he, hk⟩ | hk)
          · exact ⟨e, List.mem_append_left _ he, hk⟩
          · exact ⟨(key, value), List.mem_append_right _ (List.mem_singleton_self _), hk.symm⟩
        · rintro ⟨e, he, hk⟩
          rcases List.mem_append.1 he with he | he
          · exact Or.inl ⟨e, he, hk⟩
          · rw [List.mem_singleton] at he
            subst he
            exact Or.inr hk.symm)
      (by
        intro p hp
        rcases mapAssign_entries _ _ result p hp with hp | hp
        · exact ⟨(key, value), List.mem_append_right _ (List.mem_singleton_self _), hp.symm⟩
        · obtain ⟨e, he, hpe⟩ := h4 p hp
          exact ⟨e, List.mem_append_left _ he, hpe⟩)
    simp only [List.append_assoc, List.singleton_append] at ih
    exact ih

/-- C17. For every mapping `m` (a list of entries with pairwise distinct keys, enumerated
in any order) and every function `f` returning a new key and value, `MTransform(m, f)` is
a map (its keys are distinct) with at most as many entries as `m`; its key set is exactly
the set of keys produced by `f` over the entries of `m`; every output key `k2` maps to a
value `v2` with `f(k, v) == (k2, v2)` for some entry `(k, v)` of `m`; and when `f` is
injective on keys the result has exactly as many entries as `m`. -/
theorem MTransform_keys_and_values {TK TV UK UV : Type} [DecidableEq UK]
    (m : List (TK × TV)) (f : TK → TV → UK × UV) (hm : (m.map Prod.fst).Nodup) :
    ((MTransform m f).map Prod.fst).Nodup ∧
    (MTransform m f).length ≤ m.length ∧
    (∀ k2, k2 ∈ (MTransform m f).map Prod.fst ↔ ∃ k v, (k, v) ∈ m ∧ (f k v).1 = k2) ∧
    (∀ k2 v2, (k2, v2) ∈ MTransform m f → ∃ k v, (k, v) ∈ m ∧ f k v = (k2, v2)) ∧
    ((∀ k v k3 v3, (k, v) ∈ m → (k3, v3) ∈ m → (f k v).1 = (f k3 v3).1 → k = k3) →
      (MTransform m f).length = m.length) := by
  obtain ⟨h1, h2, h3, h4⟩ := MTransform_loop_inv f m [] [] (by simp) (by simp)
    (by simp) (by simp)
  simp only [List.nil_append] at h2 h3 h4
  have hkeys : ∀ k2, k2 ∈ (MTransform m f).map Prod.fst ↔
      ∃ k v, (k, v) ∈ m ∧ (f k v).1 = k2 := by
    intro k2
    rw [MTransform, h3]
    constructor
    · rintro ⟨⟨k, v⟩, he, hk⟩
      exact ⟨k, v, he, hk⟩
    · rintro ⟨k, v, he, hk⟩
      exact ⟨(k, v), he, hk⟩
  refine ⟨h1, h2, hkeys, ?_, ?_⟩
  · intro k2 v2 hp
    obtain ⟨⟨k, v⟩, he, hpe⟩ := h4 (k2, v2) hp
    exact ⟨k, v, he, hpe⟩
  · intro hinj
    have hnd : (m.map (fun e => (f e.1 e.2).1)).Nodup := by
      apply List.Nodup.map_on _ (List.Nodup.of_map _ hm)
      rintro ⟨k, v⟩ hx ⟨k3, v3⟩ hy hxy
      have hk : k = k3 := hinj k v k3 v3 hx hy hxy
      exact List.inj_on_of_nodup_map hm hx hy hk
    have hperm : ((MTransform m f).map Prod.fst).Perm (m.map (fun e => (f e.1 e.2).1)) := by
      apply (List.perm_ext_iff_of_nodup h1 hnd).2
      intro k2
      rw [h3, List.mem_map]
    have := hperm.length_eq
    rwa [List.length_map, List.length_map] at this

/-- C17, at a map of four entries and a function that sends two keys each to the keys `0`
and `1`: the result has two entries, each holding a value produced from one of the
colliding inputs; with the identity on keys the result has four entries. -/
theorem MTransform_keys_and_values_test :
    (((MTransform squaresMap (fun k v => (k % 2, v))).map Prod.fst).Nodup ∧
      (MTransform squaresMap (fun k v => (k % 2, v))).length ≤ squaresMap.length ∧
      (∀ k2, k2 ∈ (MTransform squaresMap (fun k v => (k % 2, v))).map Prod.fst ↔
        ∃ k v, (k, v) ∈ squaresMap ∧ ((fun k v => (k % 2, v)) k v).1 = k2) ∧
      (∀ k2 v2, (k2, v2) ∈ MTransform squaresMap (fun k v => (k % 2, v)) →
        ∃ k v, (k, v) ∈ squaresMap ∧ (fun k v => (k % 2, v)) k v = (k2, v2)) ∧
      ((∀ k v k3 v3, (k, v) ∈ squaresMap → (k3, v3) ∈ squaresMap →
          ((fun k v => (k % 2, v)) k v).1 = ((fun k v => (k % 2, v)) k3 v3).1 → k = k3) →
        (MTransform squaresMap (fun k v => (k % 2, v))).length = squaresMap.length)) ∧
    MTransform squaresMap (fun k v => (k % 2, v)) = [(0, 4), (1, 9)] ∧
    MTransform squaresMapShuffled (fun k v => (k % 2, v)) = [(0, 0), (1, 1)] ∧
    MTransform squaresMap (fun k v => (k, v + 1)) = [(0, 1), (1, 2), (2, 5), (3, 10)] :=
  ⟨MTransform_keys_and_values squaresMap (fun k v => (k % 2, v)) (by decide),
    by decide, by decide, by decide⟩

/-! ## Maps: `MAll`, `MAny`, `MAllSatisfy`, `MAnySatisfy` -/

theorem MAll_iff {TK TV : Type} (predicate : TK → TV → Bool) :
    ∀ (m : List (TK × TV)),
      MAll m predicate = true ↔ ∀ k v, (k, v) ∈ m → predicate k v = true
  | [] => by simp [MAll]
  | (key, value) :: rest => by
    unfold MAll
    by_cases h : predicate key value = true
    · simp only [h, Bool.not_true, Bool.false_eq_true, if_false]
      rw [MAll_iff predicate rest]
      constructor
      · intro hall k v hmem
        rcases List.mem_cons.1 hmem with heq | hmem
        · cases heq
          exact h
        · exact hall k v hmem
      · intro hall k v hmem
        exact hall k v (List.mem_cons_of_mem _ hmem)
    · have hf : predicate key value = false := by simpa using h
      simp only [hf, Bool.not_false, if_true, Bool.false_eq_true, false_iff]
      intro hall
      exact h (hall key value (List.mem_cons_self _ _))

theorem MAny_iff {TK TV : Type} (predicate : TK → TV → Bool) :
    ∀ (m : List (TK × TV)),
      MAny m predicate = true ↔ ∃ k v, (k, v) ∈ m ∧ predicate k v = true
  | [] => by simp [MAny]
  | (key, value) :: rest => by
    unfold MAny
    by_cases h : predicate key value = true
    · simp only [h, if_true, true_iff]
      exact ⟨key, value, List.mem_cons_self _ _, h⟩
    · rw [if_neg h, MAny_iff predicate rest]
      constructor
      · rintro ⟨k, v, hmem, hp⟩
        exact ⟨k, v, List.mem_cons_of_mem _ hmem, hp⟩
      · rintro ⟨k, v, hmem, hp⟩
        rcases List.mem_cons.1 hmem with heq | hmem
        · cases heq
          exact absurd hp h
        · exact ⟨k, v, hmem, hp⟩

theorem MAllSatisfy_inner_eq {TK TV UK UV : Type} (predicate : TK → UK → TV → UV → Bool)
    (key1 : TK) (value1 : TV) :
    ∀ (l : List (UK × UV)),
      MAllSatisfy.inner predicate key1 value1 l =
        MAll l (fun key2 value2 => predicate key1 key2 value1 value2)
  | [] => rfl
  | (key2, value2) :: rest => by
    unfold MAllSatisfy.inner MAll
    rw [MAllSatisfy_inner_eq predicate key1 value1 rest]

theorem MAnySatisfy_inner_eq {TK TV UK UV : Type} (predicate : TK → UK → TV → UV → Bool)
    (key1 : TK) (value1 : TV) :
    ∀ (l : List (UK × UV)),
      MAnySatisfy.inner predicate key1 value1 l =
        MAny l (fun key2 value2 => predicate key1 key2 value1 value2)
  | [] => rfl
  | (key2, value2) :: rest => by
    unfold MAnySatisfy.inner MAny
    rw [MAnySatisfy_inner_eq predicate key1 value1 rest]

theorem MAllSatisfy_loop_iff {TK TV UK UV : Type} (m2 : Nat → List (UK × UV))
    (entries2 : List (UK × UV)) (h2 : ∀ round, (m2 round).Perm entries2)
    (predicate : TK → UK → TV → UV → Bool) :
    ∀ (m1 : List (TK × TV)) (round : Nat),
      MAllSatisfy.loop m2 predicate round m1 = true ↔
        ∀ k v k2 v2, (k, v) ∈ m1 → (k2, v2) ∈ entries2 → predicate k k2 v v2 = true
  | [], _ => by simp [MAllSatisfy.loop]
  | (key1, value1) :: rest, round => by
    have hin : MAllSatisfy.inner predicate key1 value1 (m2 round) = true ↔
        ∀ k2 v2, (k2, v2) ∈ entries2 → predicate key1 k2 value1 v2 = true := by
      rw [MAllSatisfy_inner_eq, MAll_iff]
      constructor
      · intro h k2 v2 hmem
        exact h k2 v2 ((h2 round).mem_iff.2 hmem)
      · intro h k2 v2 hmem
        exact h k2 v2 ((h2 round).mem_iff.1 hmem)
    unfold MAllSatisfy.loop
    by_cases h : MAllSatisfy.inner predicate key1 value1 (m2 round) = true
    · rw [if_pos h, MAllSatisfy_loop_iff m2 entries2 h2 predicate rest (round + 1)]
      constructor
      · intro hall k v k2 v2 hmem hmem2
        rcases List.mem_cons.1 hmem with heq | hmem
        · cases heq
          exact hin.1 h k2 v2 hmem2
        · exact hall k v k2 v2 hmem hmem2
      · intro hall k v k2 v2 hmem hmem2
        exact hall k v k2 v2 (List.mem_cons_of_mem _ hmem) hmem2
    · rw [if_neg h]
      simp only [Bool.false_eq_true, false_iff]
      intro hall
      exact h (hin.2 (fun k2 v2 hmem2 => hall key1 value1 k2 v2 (List.mem_cons_self _ _) hmem2))

theorem MAnySatisfy_loop_iff {TK TV UK UV : Type} (m2 : Nat → List (UK × UV))
    (entries2 : List (UK × UV)) (h2 : ∀ round, (m2 round).Perm entries2)
    (predicate : TK → UK → TV → UV → Bool) :
    ∀ (m1 : List (TK × TV)) (round : Nat),
      MAnySatisfy.loop m2 predicate round m1 = true ↔
        ∃ k v k2 v2, (k, v) ∈ m1 ∧ (k2, v2) ∈ entries2 ∧ predicate k k2 v v2 = true
  | [], _ => by simp [MAnySatisfy.loop]
  | (key1, value1) :: rest, round => by
    have hin : MAnySatisfy.inner predicate key1 value1 (m2 round) = true ↔
        ∃ k2 v2, (k2, v2) ∈ entries2 ∧ predicate key1 k2 value1 v2 = true := by
      rw [MAnySatisfy_inner_eq, MAny_iff]
      constructor
      · rintro ⟨k2, v2, hmem, hp⟩
        exact ⟨k2, v2, (h2 round).mem_iff.1 hmem, hp⟩
      · rintro ⟨k2, v2, hmem, hp⟩
        exact ⟨k2, v2, (h2 round).mem_iff.2 hmem, hp⟩
    unfold MAnySatisfy.loop
    by_cases h : MAnySatisfy.inner predicate key1 value1 (m2 round) = true
    · rw [if_pos h]
      simp only [true_iff]
      obtain ⟨k2, v2, hmem2, hp⟩ := hin.1 h
      exact ⟨key1, value1, k2, v2, List.mem_cons_self _ _, hmem2, hp⟩
    · rw [if_neg h, MAnySatisfy_loop_iff m2 entries2 h2 predicate rest (round + 1)]
      constructor
      · rintro ⟨k, v, k2, v2, hmem, hmem2, hp⟩
        exact ⟨k, v, k2, v2, List.mem_cons_of_mem _ hmem, hmem2, hp⟩
      · rintro ⟨k, v, k2, v2, hmem, hmem2, hp⟩
        rcases List.mem_cons.1 hmem with heq | hmem
        · cases heq
          exact absurd (hin.2 ⟨k2, v2, hmem2, hp⟩) h
        · exact ⟨k, v, k2, v2, hmem, hmem2, hp⟩

/-- C18. The results of `MAll`, `MAny`, `MAllSatisfy` and `MAnySatisfy` do not depend on
the enumeration order. For every mapping (its list of entries `m`) and every permutation
`m2` of its entries, and for every second mapping `entries2` whatever order each `range`
over it takes (`e round` and `e2 round` in the outer iteration `round`), each operation
returns the same boolean: `MAll` is true iff the predicate holds for every entry, `MAny`
iff it holds for some entry, and the pairwise forms iff it holds for every, respectively
some, pair of entries of the two mappings. -/
theorem MAll_MAny_order_independent {TK TV UK UV : Type} (m m2 : List (TK × TV))
    (hperm : m2.Perm m) (entries2 : List (UK × UV)) (e e2 : Nat → List (UK × UV))
    (he : ∀ round, (e round).Perm entries2) (he2 : ∀ round, (e2 round).Perm entries2)
    (p : TK → TV → Bool) (q : TK → UK → TV → UV → Bool) :
    (MAll m p = true ↔ ∀ k v, (k, v) ∈ m → p k v = true) ∧
    MAll m2 p = MAll m p ∧
    (MAny m p = true ↔ ∃ k v, (k, v) ∈ m ∧ p k v = true) ∧
    MAny m2 p = MAny m p ∧
    (MAllSatisfy m e q = true ↔
      ∀ k v k2 v2, (k, v) ∈ m → (k2, v2) ∈ entries2 → q k k2 v v2 = true) ∧
    MAllSatisfy m2 e2 q = MAllSatisfy m e q ∧
    (MAnySatisfy m e q = true ↔
      ∃ k v k2 v2, (k, v) ∈ m ∧ (k2, v2) ∈ entries2 ∧ q k k2 v v2 = true) ∧
    MAnySatisfy m2 e2 q = MAnySatisfy m e q := by
  refine ⟨MAll_iff p m, ?_, MAny_iff p m, ?_, MAllSatisfy_loop_iff e entries2 he q m 0, ?_,
    MAnySatisfy_loop_iff e entries2 he q m 0, ?_⟩
  · rw [Bool.eq_iff_iff, MAll_iff, MAll_iff]
    constructor
    · intro h k v hmem
      exact h k v (hperm.mem_iff.2 hmem)
    · intro h k v hmem
      exact h k v (hperm.mem_iff.1 hmem)
  · rw [Bool.eq_iff_iff, MAny_iff, MAny_iff]
    constructor
    · rintro ⟨k, v, hmem, hp⟩
      exact ⟨k, v, hperm.mem_iff.1 hmem, hp⟩
    · rintro ⟨k, v, hmem, hp⟩
      exact ⟨k, v, hperm.mem_iff.2 hmem, hp⟩
  · rw [Bool.eq_iff_iff]
    unfold MAllSatisfy
    rw [MAllSatisfy_loop_iff e2 entries2 he2 q m2 0, MAllSatisfy_loop_iff e entries2 he q m 0]
    constructor
    · intro h k v k2 v2 hmem hmem2
      exact h k v k2 v2 (hperm.mem_iff.2 hmem) hmem2
    · intro h k v k2 v2 hmem hmem2
      exact h k v k2 v2 (hperm.mem_iff.1 hmem) hmem2
  · rw [Bool.eq_iff_iff]
    unfold MAnySatisfy
    rw [MAnySatisfy_loop_iff e2 entries2 he2 q m2 0, MAnySatisfy_loop_iff e entries2 he q m 0]
    constructor
    · rintro ⟨k, v, k2, v2, hmem, hmem2, hp⟩
      exact ⟨k, v, k2, v2, hperm.mem_iff.1 hmem, hmem2, hp⟩
    · rintro ⟨k, v, k2, v2, hmem, hmem2, hp⟩
      exact ⟨k, v, k2, v2, hperm.mem_iff.2 hmem, hmem2, hp⟩

/-- C18, at a part of the map of `TestMAll` and a shuffled enumeration of it, with the
predicate `x*x == y` of the test and, for the pairwise forms, the predicate `y1 <= y2 + 9`
over two enumerations of the same map that differ from round to round. -/
theorem MAll_MAny_order_independent_test :
    MAll squaresMapShuffled (fun x y => decide (wrapInt (x * x) = y)) =
      MAll squaresMap (fun x y => decide (wrapInt (x * x) = y)) ∧
    MAll squaresMap (fun x y => decide (wrapInt (x * x) = y)) = true ∧
    MAny squaresMapShuffled (fun x y => decide (x + y = 6)) =
      MAny squaresMap (fun x y => decide (x + y = 6)) ∧
    MAllSatisfy squaresMapShuffled (fun round => if round % 2 = 0 then squaresMap
        else squaresMapShuffled) (fun _ _ (y1 : Int) (y2 : Int) => decide (y1 ≤ y2 + 9)) =
      MAllSatisfy squaresMap (fun _ => squaresMap)
        (fun _ _ (y1 : Int) (y2 : Int) => decide (y1 ≤ y2 + 9)) ∧
    MAnySatisfy squaresMapShuffled (fun round => if round % 2 = 0 then squaresMap
        else squaresMapShuffled) (fun _ _ (y1 : Int) (y2 : Int) => decide (y1 = y2 + 5)) =
      MAnySatisfy squaresMap (fun _ => squaresMap)
        (fun _ _ (y1 : Int) (y2 : Int) => decide (y1 = y2 + 5)) :=
  have h := MAll_MAny_order_independent squaresMap squaresMapShuffled (by decide) squaresMap
    (fun _ => squaresMap)
    (fun round => if round % 2 = 0 then squaresMap else squaresMapShuffled)
    (fun _ => List.Perm.refl _)
    (fun round => by
      by_cases hr : round % 2 = 0
      · simp only [hr, if_true]
        exact List.Perm.refl _
      · simp only [hr, if_false]
        decide)
  ⟨(h (fun x y => decide (wrapInt (x * x) = y)) (fun _ _ _ _ => true)).2.1,
    by decide,
    (h (fun x y => decide (x + y = 6)) (fun _ _ _ _ => true)).2.2.2.1,
    (h (fun _ _ => true) (fun _ _ y1 y2 => decide (y1 ≤ y2 + 9))).2.2.2.2.2.1,
    (h (fun _ _ => true) (fun _ _ y1 y2 => decide (y1 = y2 + 5))).2.2.2.2.2.2.2⟩

/-! ## `Qsort`: the comparator calls, and arbitrary comparators -/

theorem foldlM_map_fst {α β γ : Type} (f : β × γ → α → Option (β × γ))
    (g : β → α → Option β) (h : ∀ st a, (f st a).map Prod.fst = g st.1 a) :
    ∀ (l : List α) (st : β × γ), (l.foldlM f st).map Prod.fst = l.foldlM g st.1
  | [], _ => rfl
  | a :: l, st => by
    rw [List.foldlM_cons, List.foldlM_cons, ← h st a]
    cases hf : f st a with
    | none => rfl
    | some st2 =>
      simp only [Option.bind_eq_bind, Option.some_bind, Option.map_some']
      exact foldlM_map_fst f g h l st2

theorem QsortTraced_step_erase {T : Type} (predicate : Nat → Nat → T → T → Int) (i j : Nat)
    (st : List T × List (Nat × Nat × T × T)) :
    (QsortTraced.step predicate i j st).map Prod.fst = Qsort.step predicate i j st.1 := by
  unfold QsortTraced.step Qsort.step
  cases st.1[j]? <;> cases st.1[j + 1]? <;> simp only [Option.map_none']
  split <;> rfl

/-- The record of calls does not change what `Qsort` computes. -/
theorem QsortTraced_erase {T : Type} (arr : List T) (predicate : Nat → Nat → T → T → Int) :
    (QsortTraced arr predicate).map Prod.fst = Qsort arr predicate := by
  unfold QsortTraced Qsort
  exact foldlM_map_fst _ _
    (fun st i => foldlM_map_fst _ _ (fun st2 j => QsortTraced_step_erase predicate i j st2)
      _ st)
    _ (arr, [])

theorem split_at_adjacent {T : Type} :
    ∀ (cur : List T) (j : Nat) (a b : T), cur[j]? = some a → cur[j + 1]? = some b →
      ∃ pre post, cur = pre ++ a :: b :: post ∧ pre.length = j
  | [], _, _, _, h, _ => by simp at h
  | x :: cur, 0, a, b, ha, hb => by
    simp only [List.getElem?_cons_zero, Option.some.injEq] at ha
    subst ha
    cases cur with
    | nil => simp at hb
    | cons y cur =>
      simp only [Nat.zero_add, List.getElem?_cons_succ, List.getElem?_cons_zero,
        Option.some.injEq] at hb
      subst hb
      exact ⟨[], cur, rfl, rfl⟩
  | x :: cur, j + 1, a, b, ha, hb => by
    rw [List.getElem?_cons_succ] at ha hb
    obtain ⟨pre, post, hc, hl⟩ := split_at_adjacent cur j a b ha hb
    exact ⟨x :: pre, post, by rw [hc]; rfl, by rw [List.length_cons, hl]⟩

/-- C19, evaluated: on `[30, 10, 20]` with the ascending comparator `Qsort` makes four
comparator calls, recorded as `(indexA, indexB, a, b)`. The second call is
`cmp(0, 1, 30, 20)` while `30` sits at position 1 and `20` at position 2; the third is
`cmp(1, 0, 10, 20)` while `10` sits at position 0 and `20` at position 1. The first index
argument is the number of the pass and the second is the position of `a`, so `indexB` is
never the position of `b`. -/
theorem QsortTraced_index_arguments :
    QsortTraced [30, 10, 20] cmpAscending =
      some ([10, 20, 30], [(0, 0, 30, 10), (0, 1, 30, 20), (1, 0, 10, 20), (1, 1, 20, 30)]) ∧
    Qsort.step cmpAscending 0 0 [30, 10, 20] = some [10, 30, 20] ∧
    Qsort.step cmpAscending 0 1 [10, 30, 20] = some [10, 20, 30] ∧
    Qsort.step cmpAscending 1 0 [10, 20, 30] = some [10, 20, 30] ∧
    Qsort.step cmpAscending 1 1 [10, 20, 30] = some [10, 20, 30] ∧
    (QsortTraced [30, 10, 20] cmpAscending).map Prod.fst = Qsort [30, 10, 20] cmpAscending := by
  refine ⟨by decide, by decide, by decide, by decide, by decide, ?_⟩
  exact QsortTraced_erase _ _

/-- C20. For every sequence (empty and one-element included) and every comparator
whatsoever, even an inconsistent or index-dependent one, `Qsort` never reads a position
outside the sequence (it returns a result: an out-of-range read is the only way not to) and
the result has the length of the input and is a permutation of it. The only mutation is
the swap of two adjacent elements: one step of the inner loop either leaves the sequence
as it is or exchanges the elements at positions `j` and `j+1`. Every call of one run has
its own pair `(i, j)`, so a comparator that answers from hidden state is covered by a
comparator that depends on its index arguments. -/
theorem Qsort_permutes_for_any_comparator {T : Type} (seq : List T)
    (cmp : Nat → Nat → T → T → Int) :
    (∃ r, Qsort seq cmp = some r ∧ r.length = seq.length ∧ r.Perm seq) ∧
    Qsort ([] : List T) cmp = some [] ∧
    (∀ x : T, Qsort [x] cmp = some [x]) ∧
    (∀ (i j : Nat) (cur : List T), j + 1 < cur.length →
      ∃ next, Qsort.step cmp i j cur = some next) ∧
    (∀ (i j : Nat) (cur next : List T), Qsort.step cmp i j cur = some next →
      next = cur ∨
      ∃ pre a b post, cur = pre ++ a :: b :: post ∧ pre.length = j ∧
        next = pre ++ b :: a :: post) := by
  refine ⟨⟨_, Qsort_eq_passes seq cmp, (passes_perm cmp _ seq).length_eq,
    passes_perm cmp _ seq⟩, rfl, fun x => rfl, ?_, ?_⟩
  · intro i j cur hj
    have ha : cur[j]? = some cur[j] := List.getElem?_eq_getElem (by omega)
    have hb : cur[j + 1]? = some cur[j + 1] := List.getElem?_eq_getElem hj
    obtain ⟨pre, post, hc, hl⟩ := split_at_adjacent cur j _ _ ha hb
    subst hl
    rw [hc, step_at]
    exact ⟨_, rfl⟩
  · intro i j cur next hstep
    cases ha : cur[j]? with
    | none =>
      unfold Qsort.step at hstep
      rw [ha] at hstep
      simp at hstep
    | some a =>
      cases hb : cur[j + 1]? with
      | none =>
        unfold Qsort.step at hstep
        rw [ha, hb] at hstep
        simp at hstep
      | some b =>
        obtain ⟨pre, post, hc, hl⟩ := split_at_adjacent cur j a b ha hb
        subst hl
        rw [hc, step_at] at hstep
        by_cases hp : cmp i pre.length a b > 0
        · rw [if_pos hp, Option.some.injEq] at hstep
          exact Or.inr ⟨pre, a, b, post, hc, rfl, hstep.symm⟩
        · rw [if_neg hp, Option.some.injEq] at hstep
          exact Or.inl (by rw [hc]; exact hstep.symm)

/-! ## `Qsort` is stable -/

theorem bubbleFrom_filter {T : Type} (predicate : Nat → Nat → T → T → Int) (P : T → Bool)
    (hP : ∀ i j a b, predicate i j a b > 0 → ¬ (P a = true ∧ P b = true)) (i : Nat) :
    ∀ (rest : List T) (j : Nat) (a : T),
      (bubbleFrom predicate i j a rest).filter P = (a :: rest).filter P
  | [], _, _ => rfl
  | b :: rest, j, a => by
    unfold bubbleFrom
    by_cases hc : predicate i j a b > 0
    · rw [if_pos hc, List.filter_cons, bubbleFrom_filter predicate P hP i rest (j + 1) a]
      have hnot := hP i j a b hc
      by_cases ha : P a = true
      · have hb : P b = false := by
          cases hpb : P b with
          | false => rfl
          | true => exact absurd ⟨ha, hpb⟩ hnot
        simp [List.filter_cons, ha, hb]
      · have ha2 : P a = false := by simpa using ha
        simp [List.filter_cons, ha2]
    · rw [if_neg hc, List.filter_cons, bubbleFrom_filter predicate P hP i rest (j + 1) b,
        List.filter_cons (x := a)]

theorem bubbleList_filter {T : Type} (predicate : Nat → Nat → T → T → Int) (P : T → Bool)
    (hP : ∀ i j a b, predicate i j a b > 0 → ¬ (P a = true ∧ P b = true)) (i : Nat)
    (l : List T) : (bubbleList predicate i l).filter P = l.filter P := by
  cases l with
  | nil => rfl
  | cons a rest => exact bubbleFrom_filter predicate P hP i rest 0 a

theorem passes_filter {T : Type} (predicate : Nat → Nat → T → T → Int) (P : T → Bool)
    (hP : ∀ i j a b, predicate i j a b > 0 → ¬ (P a = true ∧ P b = true)) :
    ∀ (is : List Nat) (l : List T),
      (is.foldl (fun result i => bubbleList predicate i result) l).filter P = l.filter P
  | [], _ => rfl
  | i :: is, l => by
    rw [List.foldl_cons, passes_filter predicate P hP is, bubbleList_filter predicate P hP]

/-- C21. `Qsort` is stable: for every sequence and every comparator that ignores its index
arguments and is the three-way comparator of a total preorder, the elements that the
comparator does not order strictly against a given `x` (`cmp(x, y) <= 0` and
`cmp(y, x) <= 0`) appear in `Qsort(seq, cmp)` in the same order as in `seq`; in particular
any two such elements `a` before `b` of the result stand in this order in `seq` too. A swap
happens only when `cmp` returns a value strictly greater than 0. -/
theorem Qsort_stable {T : Type} (seq : List T) (cmp : Nat → Nat → T → T → Int)
    (hidx : ∀ i j i2 j2 a b, cmp i j a b = cmp i2 j2 a b)
    (htotal : ∀ a b, cmp 0 0 a b ≤ 0 ∨ cmp 0 0 b a ≤ 0)
    (htrans : ∀ a b c, cmp 0 0 a b ≤ 0 → cmp 0 0 b c ≤ 0 → cmp 0 0 a c ≤ 0) :
    ∃ r, Qsort seq cmp = some r ∧
      (∀ x : T, r.filter (sameRank cmp x) = seq.filter (sameRank cmp x)) ∧
      (∀ a b : T, cmp 0 0 a b ≤ 0 → cmp 0 0 b a ≤ 0 →
        List.Sublist [a, b] r → List.Sublist [a, b] seq) := by
  have hfilter : ∀ x : T,
      ((List.range (seq.length - 1)).foldl (fun result i => bubbleList cmp i result) seq).filter
        (sameRank cmp x) = seq.filter (sameRank cmp x) := by
    intro x
    apply passes_filter cmp (sameRank cmp x)
    intro i j a b hc hab
    unfold sameRank at hab
    simp only [decide_eq_true_eq] at hab
    have hle : cmp 0 0 a b ≤ 0 := htrans a x b hab.1.2 hab.2.1
    rw [hidx i j 0 0 a b] at hc
    omega
  refine ⟨_, Qsort_eq_passes seq cmp, hfilter, ?_⟩
  intro a b hab hba hsub
  have h1 := hsub.filter (sameRank cmp a)
  rw [hfilter a] at h1
  have haa : sameRank cmp a a = true := by
    unfold sameRank
    simp only [decide_eq_true_eq, and_self]
    exact (htotal a a).elim id id
  have hb : sameRank cmp a b = true := by
    unfold sameRank
    simp only [decide_eq_true_eq]
    exact ⟨hab, hba⟩
  have h2 : [a, b].filter (sameRank cmp a) = [a, b] := by
    simp [List.filter_cons, haa, hb]
  rw [h2] at h1
  exact h1.trans (List.filter_sublist seq)

/-- C21, at records sorted by key: the keys `2, 1, 2, 1, 2` tagged `0..4` come out as
`1, 1, 2, 2, 2` with the tags `1, 3` and `0, 2, 4`, each group in its input order. -/
theorem Qsort_stable_tagged_test :
    (∃ r, Qsort taggedInput cmpByKey = some r ∧
      (∀ x, r.filter (sameRank cmpByKey x) = taggedInput.filter (sameRank cmpByKey x)) ∧
      (∀ a b, cmpByKey 0 0 a b ≤ 0 → cmpByKey 0 0 b a ≤ 0 →
        List.Sublist [a, b] r → List.Sublist [a, b] taggedInput)) ∧
    Qsort taggedInput cmpByKey = some [(1, 1), (1, 3), (2, 0), (2, 2), (2, 4)] :=
  ⟨Qsort_stable taggedInput cmpByKey
      (fun _ _ _ _ _ _ => rfl)
      (fun a b => by unfold cmpByKey; omega)
      (fun a b c => by unfold cmpByKey; omega),
    by decide⟩

end Cgorithm
